import Mathlib

/-!
# robi_backend — formal model of the streaming-response decoder and repositories

A shallow embedding, in Lean 4, of the parts of the `robi_backend` repository
that the specification's claims are about:

* `ws_handlers/streaming.py` — the response cycle `_process_interaction`
  (header-tag accumulation, streaming-forward phase with `[media_summary:]`
  detection, end-of-stream flush, directive extraction), the WebSocket
  dispatch loop `ws_interact`, and `_send_safe`;
* `repositories/memory.py` — privacy gate `is_private`, `save`,
  `get_for_user`, `get_recent_important`;
* `repositories/people.py` — `create`, `get_or_create`, `update_name`,
  `update_notes`, `delete`, `add_embedding`.

Text is modelled as `List Char`.  Python strings that flow through the
decoder are translated operation by operation (`find`, slicing, `strip`,
`lower`, regex matches of the fixed tag patterns).  The tag-parsing helpers
`parse_emotion_tag`, `parse_emojis_tag` and `parse_actions_tag` live in
`services/expression.py` / `services/movement.py`, which are not present
under `src/`; those are modelled from the spec (§4.2) and are marked as such.

Case folding is modelled for ASCII letters (the only case-insensitivity the
fixed tag grammars exercise); Python's full Unicode `str.lower` is modelled
for the additional Spanish letters appearing in the privacy keyword list.
-/

namespace Robi

/-- Text as it flows through the decoder: a Python `str` as a list of chars. -/
abbrev Str := List Char

/-- Lower-case table for the ASCII letters. -/
def lcTable : List (Char × Char) :=
  [('A', 'a'), ('B', 'b'), ('C', 'c'), ('D', 'd'), ('E', 'e'), ('F', 'f'),
   ('G', 'g'), ('H', 'h'), ('I', 'i'), ('J', 'j'), ('K', 'k'), ('L', 'l'),
   ('M', 'm'), ('N', 'n'), ('O', 'o'), ('P', 'p'), ('Q', 'q'), ('R', 'r'),
   ('S', 's'), ('T', 't'), ('U', 'u'), ('V', 'v'), ('W', 'w'), ('X', 'x'),
   ('Y', 'y'), ('Z', 'z')]

/-- ASCII lower-casing of one character (`str.lower` restricted to the ASCII
letters that the case-insensitive tag grammars can mention). -/
def lc (c : Char) : Char :=
  match lcTable.find? (fun p => p.1 = c) with
  | some p => p.2
  | none => c

/-- Case-insensitive prefix test: `pat` (given already lower-cased) is a
prefix of `lc`-mapped `s`.  Models Python's `re.IGNORECASE` anchors and
`str.lower().find` on the fixed tag patterns. -/
def ciIsPrefix : Str → Str → Bool
  | [], _ => true
  | _ :: _, [] => false
  | p :: ps, c :: cs => (lc c = p : Bool) && ciIsPrefix ps cs

/-! ### Python string helpers: `strip`, `lstrip`, `rstrip`, splitting -/

/-- Python `str.lstrip()`. -/
def lstrip (s : Str) : Str := s.dropWhile Char.isWhitespace

/-- Python `str.rstrip()`. -/
def rstrip (s : Str) : Str := (s.reverse.dropWhile Char.isWhitespace).reverse

/-- Python `str.strip()`. -/
def strip (s : Str) : Str := rstrip (lstrip s)

/-- Python `str.split(sep)` for a single-character separator. -/
def splitOnChar (sep : Char) : Str → List Str
  | [] => [[]]
  | c :: rest =>
    match splitOnChar sep rest with
    | [] => [[c]]
    | g :: gs => if c = sep then [] :: g :: gs else (c :: g) :: gs

/-- Scan for the first close bracket: returns the text before the first
`']'` and the text after it (Python `s.find("]")` plus slicing). -/
def splitClose (s : Str) : Option (Str × Str) :=
  if ']' ∈ s then
    some (s.takeWhile (fun c => c ≠ ']'), (s.dropWhile (fun c => c ≠ ']')).tail)
  else none

/-- Scan for a `\w+` tag word followed by `']'` (the `[emotion:NAME]` body,
regex `(\w+)\]`). -/
def wordChar (c : Char) : Bool := c.isAlphanum || c = '_'

def wordSplit (s : Str) : Option (Str × Str) :=
  if s.takeWhile wordChar ≠ [] ∧ (s.dropWhile wordChar).head? = some ']' then
    some (s.takeWhile wordChar, (s.dropWhile wordChar).tail)
  else none

/-! ### The tag parsers

`parse_emotion_tag`, `parse_emojis_tag` and `parse_actions_tag` live in
`services/expression.py` / `services/movement.py`, which are not present
under `src/` (only their unit tests and their caller
`ws_handlers/streaming.py` are). -/

/-- Upper-case table lookup (inverse of `lc`), for `[emojis:...]` codes. -/
def uc (c : Char) : Char :=
  match lcTable.find? (fun p => p.2 = c) with
  | some p => p.1
  | none => c

def emotOpen : Str := "[emotion:".toList

def emojOpen : Str := "[emojis:".toList

def actOpen : Str := "[actions:".toList

/-- Modelled from the spec: the fixed closed vocabulary of emotion tags
(§4.2: "TAG from a fixed closed vocabulary; unknown or absent → neutral";
members witnessed by the unit tests of `services/expression.py`). -/
def VALID_TAGS : List String :=
  ["happy", "sad", "excited", "curious", "neutral", "greeting", "empathy",
   "playful", "worried", "love", "surprised"]

/-- Modelled from the spec: `parse_emotion_tag` of `services/expression.py`
(absent from `src/`).  §4.2: a leading case-insensitive `[emotion:TAG]` is
removed; a TAG outside the closed vocabulary, or an absent tag, yields
`"neutral"`; text without a leading complete tag is returned unchanged. -/
def parse_emotion_tag (s : Str) : String × Str :=
  if ciIsPrefix emotOpen s then
    match wordSplit (s.drop 9) with
    | some (w, r) =>
      let tag := String.mk (w.map lc)
      ((if VALID_TAGS.contains tag then tag else "neutral"), lstrip r)
    | none => ("neutral", s)
  else ("neutral", s)

/-- Modelled from the spec: `parse_emojis_tag` of `services/expression.py`
(absent from `src/`).  §4.2: a leading case-insensitive
`[emojis:CODE,CODE,...]` yields 0+ codepoint identifiers, upper-cased on
extraction; otherwise `([], s)`. -/
def parse_emojis_tag (s : Str) : List Str × Str :=
  if ciIsPrefix emojOpen s then
    match splitClose (s.drop 8) with
    | some (content, r) =>
      ((((splitOnChar ',' content).map strip).filter (fun c => c ≠ [])).map
         (List.map uc),
       lstrip r)
    | none => ([], s)
  else ([], s)

/-- Modelled from the spec: `parse_actions_tag` of `services/movement.py`
(absent from `src/`).  §4.2: a leading case-insensitive
`[actions:step|step|...]` yields the raw motion steps (here kept as the raw
step strings; their expansion to ESP32 primitives by `build_move_sequence`
is a deterministic function of these and is not needed by the claims);
otherwise `([], s)`. -/
def parse_actions_tag (s : Str) : List Str × Str :=
  if ciIsPrefix actOpen s then
    match splitClose (s.drop 9) with
    | some (content, r) =>
      (((splitOnChar '|' content).map strip).filter (fun c => c ≠ []), lstrip r)
    | none => ([], s)
  else ([], s)

/-- Modelled from the spec: `EMOTION_TO_EMOJIS` of `services/expression.py`
(absent from `src/`); per-emotion default emoji codes, with the `neutral`
entry as fallback for unknown tags. -/
def EMOTION_TO_EMOJIS : List (String × List Str) :=
  [("happy", ["1F600".toList, "1F603".toList]),
   ("sad", ["1F622".toList]),
   ("excited", ["1F929".toList, "2728".toList]),
   ("curious", ["1F914".toList]),
   ("neutral", ["1F642".toList]),
   ("greeting", ["1F44B".toList]),
   ("empathy", ["1FAC2".toList]),
   ("playful", ["1F61C".toList]),
   ("worried", ["1F61F".toList]),
   ("love", ["2764".toList, "1F60D".toList]),
   ("surprised", ["1F62E".toList])]

/-- Modelled from the spec: `emotion_to_emojis` of `services/expression.py`
(absent from `src/`): look up the tag, fall back to the neutral entry. -/
def emotion_to_emojis (tag : String) : List Str :=
  match EMOTION_TO_EMOJIS.find? (fun p => p.1 = tag) with
  | some p => p.2
  | none => ["1F642".toList]

/-- The loop's guard on the remainder after a parse: the text starts a tag
(`startswith("[")`) whose close bracket has not arrived yet. -/
def partialTag (s : Str) : Bool := decide (s.head? = some '[') && !decide (']' ∈ s)

/-! ### Messages of the duplex protocol (`ws_handlers/protocol.py`)

Each `make_*` helper of `protocol.py` serialises one of these to JSON; the
model keeps them as structured values. `responseMeta.actions` carries the raw
decoded steps (the JSON wraps them through `build_move_sequence`, a
deterministic function of these steps). -/

inductive Msg where
  | authOk (sessionId : String)
  | emotion (requestId : String) (tag : String) (personIdentified : Option String)
  | textChunk (requestId : String) (text : Str)
  | captureRequest (requestId : String) (captureType : String)
  | responseMeta (requestId : String) (responseText : Str) (emojis : List Str)
      (actions : List Str) (personName : Option Str)
  | streamEnd (requestId : String)
  | error (errorCode : String) (message : String) (recoverable : Bool)
      (requestId : Option String)
  | explorationActions (requestId : String)
  | faceScanActions (requestId : String)
deriving DecidableEq, Repr

/-- Decoder state of one response cycle: the local variables of
`_process_interaction` (`streaming.py` lines 514–522) plus the trace of
messages handed to `_send_safe`. -/
structure DecState where
  emotionSent : Bool := false
  emotionTag : String := "neutral"
  emojis : List Str := []        -- contextual_emojis
  actions : List Str := []       -- response_actions (raw steps)
  prefixBuf : Str := []          -- prefix_buf
  pendingBuf : Str := []         -- pending_buf
  visible : Str := []            -- full_response
  mediaSummary : Str := []       -- media_summary
  msgs : List Msg := []
deriving DecidableEq, Repr

/-- `_MAX_HEADER_BUFFER` (`streaming.py` line 60). -/
def MAX_HEADER_BUFFER : Nat := 500

def mediaOpen : Str := "[media_summary:".toList

/-- `lower_buf.find("[media_summary:")` — first index (if any) at which the
pattern matches case-insensitively. -/
def findCI (pat : Str) : Str → Option Nat
  | [] => none
  | c :: rest =>
    if ciIsPrefix pat (c :: rest) then some 0
    else (findCI pat rest).map (· + 1)

/-- `s.find("]", n)` — first index `≥ n` holding `']'` (if any). -/
def findFrom (a : Char) (n : Nat) (s : Str) : Option Nat :=
  ((s.drop n).findIdx? (fun c => c = a)).map (· + n)

/-- FASE 1 of the decode loop (`streaming.py` lines 544–611): accumulate the
header buffer; re-parse emotion → emojis → actions each chunk; hold back
while a tag may still be completing (unless the 500-char cap is hit);
on resolution emit the `emotion` message and route the remainder to
`pending_buf`. -/
def headerStep (person : Option String) (reqId : String)
    (st : DecState) (chunk : Str) : DecState :=
  let buf := st.prefixBuf ++ chunk
  let full : Bool := decide (MAX_HEADER_BUFFER ≤ buf.length)
  let st0 := { st with prefixBuf := buf }
  if !(decide (']' ∈ buf)) && !full then st0
  else
    let er := parse_emotion_tag buf
    if decide (er.2 = []) && !full then st0
    else if partialTag er.2 && !full then st0
    else
      let jr := parse_emojis_tag er.2
      let st1 := if !(decide (jr.1 = [])) then { st0 with emojis := jr.1 } else st0
      if decide (jr.2 = []) && !full then st1
      else if partialTag jr.2 && !full then st1
      else
        let ar := parse_actions_tag jr.2
        let st2 := if !(decide (ar.1 = [])) then { st1 with actions := ar.1 } else st1
        if decide (ar.2 = []) && !full then st2
        else if partialTag ar.2 && !full then st2
        else
          { st2 with
            emotionSent := true
            emotionTag := er.1
            msgs := st2.msgs ++ [Msg.emotion reqId er.1 person]
            pendingBuf := st2.pendingBuf ++ ar.2 }

/-- FASE 3 of the decode loop (`streaming.py` lines 613–650): stream forward
while watching for a possibly chunk-straddling `[media_summary:` marker,
holding back only the trailing margin that could still start it. -/
def streamStep (reqId : String) (st : DecState) (chunk : Str) : DecState :=
  let pb := st.pendingBuf ++ chunk
  match findCI mediaOpen pb with
  | some i =>
    let before := pb.take i
    let st1 :=
      if before ≠ [] then
        { st with msgs := st.msgs ++ [Msg.textChunk reqId before],
                  visible := st.visible ++ before }
      else st
    let pb2 := pb.drop i
    match findFrom ']' mediaOpen.length pb2 with
    | some j =>
      let ms := strip ((pb2.drop mediaOpen.length).take (j - mediaOpen.length))
      let afterTag := lstrip (pb2.drop (j + 1))
      let st2 := { st1 with mediaSummary := ms, pendingBuf := [] }
      if afterTag ≠ [] then
        { st2 with msgs := st2.msgs ++ [Msg.textChunk reqId afterTag],
                   visible := st2.visible ++ afterTag }
      else st2
    | none => { st1 with pendingBuf := pb2 }
  | none =>
    let safeLen := pb.length - mediaOpen.length
    if 0 < safeLen then
      { st with msgs := st.msgs ++ [Msg.textChunk reqId (pb.take safeLen)],
                visible := st.visible ++ pb.take safeLen,
                pendingBuf := pb.drop safeLen }
    else { st with pendingBuf := pb }

/-- One iteration of `async for chunk in run_agent_stream(...)`
(`streaming.py` lines 525–650): empty chunks are skipped. -/
def decodeStep (person : Option String) (reqId : String)
    (st : DecState) (chunk : Str) : DecState :=
  if chunk = [] then st
  else if st.emotionSent then streamStep reqId st chunk
  else headerStep person reqId st chunk

/-- Non-anchored search for a complete `[media_summary: ...]` tag, the
`re.search(r"\[media_summary:\s*(.*?)\]", ...)` of the end-of-stream flush.
Returns `(text before the match, raw group up to the first close bracket,
text after the match)`; the caller strips the group, which makes the greedy
`\s*` prefix of the Python group irrelevant. -/
def reSearchMedia : Str → Option (Str × Str × Str)
  | [] => none
  | c :: rest =>
    if ciIsPrefix mediaOpen (c :: rest) ∧ ']' ∈ (c :: rest).drop mediaOpen.length
    then
      let tail := (c :: rest).drop mediaOpen.length
      some ([], tail.takeWhile (fun x => x ≠ ']'),
            (tail.dropWhile (fun x => x ≠ ']')).tail)
    else
      match reSearchMedia rest with
      | some (b, g, a) => some (c :: b, g, a)
      | none => none

/-- First half of the end-of-stream handling (`streaming.py` lines 671–685):
if the stream ended before the header resolved, re-parse the prefix buffer
for the emotion tag, emit the (possibly default `neutral`) emotion message,
and send any remaining text as one chunk. -/
def finishEmotion (person : Option String) (reqId : String)
    (st : DecState) : DecState :=
  if st.emotionSent then st
  else
    let er :=
      if st.prefixBuf ≠ [] then parse_emotion_tag st.prefixBuf
      else (st.emotionTag, [])
    let vis := st.visible ++ er.2
    let stA := { st with
      emotionSent := true
      emotionTag := er.1
      visible := vis
      msgs := st.msgs ++ [Msg.emotion reqId er.1 person] }
    if vis ≠ [] then
      { stA with msgs := stA.msgs ++ [Msg.textChunk reqId vis] }
    else stA

/-- Second half of the end-of-stream handling (`streaming.py` lines 687–705):
force-resolve the still-open `pending_buf` with a non-anchored
media-summary search, falling back to literal text. -/
def finishFlush (reqId : String) (st : DecState) : DecState :=
  if st.pendingBuf ≠ [] then
    match reSearchMedia st.pendingBuf with
    | some (before, g, after) =>
      let ms := if st.mediaSummary = [] then strip g else st.mediaSummary
      let b := rstrip before
      let a := lstrip after
      let clean := strip (b ++ (if b ≠ [] ∧ a ≠ [] then [' '] else []) ++ a)
      let st2 := { st with mediaSummary := ms, pendingBuf := [] }
      if clean ≠ [] then
        { st2 with msgs := st2.msgs ++ [Msg.textChunk reqId clean],
                   visible := st2.visible ++ clean }
      else st2
    | none =>
      let clean := strip st.pendingBuf
      let st2 := { st with pendingBuf := [] }
      if clean ≠ [] then
        { st2 with msgs := st2.msgs ++ [Msg.textChunk reqId clean],
                   visible := st2.visible ++ clean }
      else st2
  else st

/-- End-of-stream handling (`streaming.py` lines 671–705): emit the default
emotion if the stream ended before the header resolved, then force-resolve
the still-open `pending_buf`. -/
def finishStream (person : Option String) (reqId : String)
    (st : DecState) : DecState :=
  finishFlush reqId (finishEmotion person reqId st)

/-! ### Final extraction passes over the reassembled text
(`streaming.py` lines 707–756): `_PERSON_NAME_TAG_RE`, `_MEMORY_TAG_RE`,
`_ZONE_LEARN_TAG_RE`, each matched anywhere and removed via `re.sub`. -/

def personOpen : Str := "[person_name:".toList

def memOpen : Str := "[memory:".toList

def zoneOpen : Str := "[zone_learn:".toList

/-- Anchored match of `\[person_name:([^\]]+)\]` (IGNORECASE): returns the
group and the suffix after the match. -/
def matchPersonName (s : Str) : Option (Str × Str) :=
  if ciIsPrefix personOpen s then
    match splitClose (s.drop personOpen.length) with
    | some (content, r) => if content ≠ [] then some (content, r) else none
    | none => none
  else none

/-- Anchored match of `\[memory:([a-z_]+):([^\]]+)\]` (IGNORECASE): returns
the suffix after the match. -/
def matchMemory (s : Str) : Option Str :=
  if ciIsPrefix memOpen s then
    let t := s.drop memOpen.length
    let ty := t.takeWhile (fun c => c.isAlpha || c = '_')
    let t2 := t.dropWhile (fun c => c.isAlpha || c = '_')
    if ty ≠ [] ∧ t2.head? = some ':' then
      match splitClose t2.tail with
      | some (content, r) => if content ≠ [] then some r else none
      | none => none
    else none
  else none

/-- Anchored match of `\[zone_learn:([^:]+):([^:]+):([^\]]+)\]` (IGNORECASE):
returns the suffix after the match. -/
def matchZone (s : Str) : Option Str :=
  if ciIsPrefix zoneOpen s then
    let t := s.drop zoneOpen.length
    let g1 := t.takeWhile (fun c => c ≠ ':')
    let t1 := t.dropWhile (fun c => c ≠ ':')
    if g1 ≠ [] ∧ t1.head? = some ':' then
      let g2 := t1.tail.takeWhile (fun c => c ≠ ':')
      let t2 := t1.tail.dropWhile (fun c => c ≠ ':')
      if g2 ≠ [] ∧ t2.head? = some ':' then
        match splitClose t2.tail with
        | some (content, r) => if content ≠ [] then some r else none
        | none => none
      else none
    else none
  else none

/-- `re.sub(pattern, "", s)`: scan left to right; at each position either
remove an anchored match and continue after it, or keep the character.
Structurally recursive on a fuel argument so that it evaluates by kernel
reduction; `subAll` supplies `s.length` fuel, which
`subAllAux_eq_of_le_fuel` proves sufficient for any matcher that consumes
at least one character (as the three directive matchers do). -/
def subAllAux (m : Str → Option Str) : Nat → Str → Str
  | _, [] => []
  | 0, s => s
  | fuel + 1, c :: rest =>
    match m (c :: rest) with
    | some r => subAllAux m fuel r
    | none => c :: subAllAux m fuel rest

def subAll (m : Str → Option Str) (s : Str) : Str := subAllAux m s.length s

/-- `_PERSON_NAME_TAG_RE.search(full_response)` — group of the first match. -/
def searchPersonName : Str → Option Str
  | [] => none
  | c :: rest =>
    match matchPersonName (c :: rest) with
    | some (g, _) => some g
    | none => searchPersonName rest

def subPersonName : Str → Str := subAll (fun s => (matchPersonName s).map (fun x => x.2))

def subMemory : Str → Str := subAll matchMemory

def subZone : Str → Str := subAll matchZone

/-- Modelled from the spec: `classify_intent` of `services/intent.py` (absent
from `src/`): lightweight keyword classification of the final text using a
fixed bilingual keyword list, video keywords taking priority over photo. -/
def VIDEO_KEYWORDS : List Str :=
  ["video".toList, "graba".toList, "record".toList, "pasando".toList]

def PHOTO_KEYWORDS : List Str :=
  ["foto".toList, "photo".toList, "picture".toList, "cara".toList]

def classify_intent (s : Str) : Option String :=
  let low := s.map lc
  if VIDEO_KEYWORDS.any (fun kw => decide (kw <:+: low)) then some "video_request"
  else if PHOTO_KEYWORDS.any (fun kw => decide (kw <:+: low)) then some "photo_request"
  else none

/-- Steps 5–7 of `_process_interaction` (`streaming.py` lines 707–790):
extract `[person_name:...]`, `[memory:...]` and `[zone_learn:...]` from the
reassembled text (stripping them from `full_response` only), classify the
capture intent, then emit `response_meta` and `stream_end`.  The background
persistence tasks the extractions schedule are fire-and-forget writes whose
effects are modelled separately at the repository layer. -/
def finalize (person : Option String) (reqId : String) (st : DecState) : DecState :=
  let pn := searchPersonName st.visible
  let extractedName := pn.map strip
  let vis1 := if pn.isSome then strip (subPersonName st.visible) else st.visible
  let vis2 := strip (subMemory vis1)
  let vis3 := strip (subZone vis2)
  let st1 :=
    match classify_intent vis3 with
    | some "photo_request" =>
      { st with msgs := st.msgs ++ [Msg.captureRequest reqId "photo"] }
    | some "video_request" =>
      { st with msgs := st.msgs ++ [Msg.captureRequest reqId "video"] }
    | _ => st
  let emotionEmojis := emotion_to_emojis st.emotionTag
  let emojis :=
    if st.emojis ≠ [] then st.emojis ++ emotionEmojis.take 2 else emotionEmojis
  { st1 with
    visible := vis3
    msgs := st1.msgs ++
      [Msg.responseMeta reqId vis3 emojis st.actions extractedName,
       Msg.streamEnd reqId] }

/-- The decode loop over the whole (finite, completed) model stream. -/
def runDecode (person : Option String) (reqId : String) (chunks : List Str) :
    DecState :=
  chunks.foldl (decodeStep person reqId) {}

/-- One full response cycle `_process_interaction` over a stream that
completes normally, as the final decoder state (whose `msgs` is the ordered
trace of messages sent to the client). -/
def processInteraction (person : Option String) (reqId : String)
    (chunks : List Str) : DecState :=
  finalize person reqId (finishStream person reqId (runDecode person reqId chunks))

/-- A response cycle whose backend stream raises after yielding `chunks`
(`streaming.py` lines 652–669): the exception is caught, one recoverable
`AGENT_ERROR` tagged with the turn's request id is sent, and the cycle
returns early (no `response_meta`, no `stream_end`). -/
def processInteractionRaising (person : Option String) (reqId : String)
    (chunks : List Str) : List Msg :=
  (runDecode person reqId chunks).msgs ++
    [Msg.error "AGENT_ERROR" "Error procesando la solicitud" true (some reqId)]

/-- The concatenation of all `text_chunk` payloads of a trace — the "final
visible text" of a response cycle. -/
def textChunksConcat (msgs : List Msg) : Str :=
  (msgs.map fun m =>
    match m with
    | Msg.textChunk _ t => t
    | _ => []).flatten

/-! ### The header parse chain as a function of the buffer

The loop of FASE 1 re-runs `parse_emotion_tag` → `parse_emojis_tag` →
`parse_actions_tag` on the whole growing buffer each iteration.  These
definitions name the values of that chain on a buffer `s`, and the guard
predicates deciding how far the chain is evaluated before the loop waits
for more input. -/

def tagOf (s : Str) : String := (parse_emotion_tag s).1

def r1 (s : Str) : Str := (parse_emotion_tag s).2

def emOf (s : Str) : List Str := (parse_emojis_tag (r1 s)).1

def r2 (s : Str) : Str := (parse_emojis_tag (r1 s)).2

def acOf (s : Str) : List Str := (parse_actions_tag (r2 s)).1

def r3 (s : Str) : Str := (parse_actions_tag (r2 s)).2

/-- The loop reaches the emojis parse on buffer `s` (below the cap). -/
def reachEm (s : Str) : Prop := ']' ∈ s ∧ r1 s ≠ [] ∧ partialTag (r1 s) = false

/-- The loop reaches the actions parse on buffer `s` (below the cap). -/
def reachAc (s : Str) : Prop := reachEm s ∧ r2 s ≠ [] ∧ partialTag (r2 s) = false

/-- The loop resolves the header on buffer `s` (below the cap): the emotion
message is emitted and FASE 3 starts. -/
def gatesPass (s : Str) : Prop := reachAc s ∧ r3 s ≠ [] ∧ partialTag (r3 s) = false

instance (s : Str) : Decidable (reachEm s) := by unfold reachEm; exact inferInstance

instance (s : Str) : Decidable (reachAc s) := by unfold reachAc; exact inferInstance

instance (s : Str) : Decidable (gatesPass s) := by unfold gatesPass; exact inferInstance

/-- The contextual-emoji list the cycle ends up with when the whole stream
text is `s`: the chain value if the emojis parse is ever reached, else the
initial `[]`. -/
def emFinal (s : Str) : List Str := if reachEm s then emOf s else []

/-- The action-step list the cycle ends up with for stream text `s`. -/
def acFinal (s : Str) : List Str := if reachAc s then acOf s else []

/-! ### Claim C1 -/

/-- Counterexample input for C1, visible-text part: one stream text, two
chunkings that differ only at a chunk boundary inside run of spaces before
the `[media_summary:]` tag. -/
def c1VisA : List Str := ["[emotion:happy] A  [media_summary: s] B".toList]

def c1VisB : List Str :=
  ["[emotion:happy] A".toList, "  [media_summary: s] B".toList]

/-- Counterexample input for C1, emoji part: an `[emojis:...]` tag whose
close bracket falls beyond the 500-character header cap. -/
def c1CapHead : Str := "[emotion:happy][emojis:".toList ++ List.replicate 477 'A'

def c1CapA : List Str := [c1CapHead ++ "]x".toList]

def c1CapB : List Str := [c1CapHead, "]x".toList]

/-! ### Claim C3 -/

/-- Is a message an `emotion` notification? -/
def isEmotionMsg : Msg → Bool
  | Msg.emotion _ _ _ => true
  | _ => false

/-- Trace invariant of the decode loop: before the emotion is sent nothing
has been sent at all; afterwards the trace is the emotion message followed
by non-emotion messages only. -/
def traceInv (person : Option String) (reqId : String) (st : DecState) : Prop :=
  (st.emotionSent = false → st.msgs = []) ∧
  (st.emotionSent = true → ∃ t rest,
    st.msgs = Msg.emotion reqId t person :: rest ∧
    rest.all (fun m => !isEmotionMsg m) = true)

/-! ### Claim C2 -/

/-- Does a message carry a `text_chunk` payload containing `tag`? -/
def chunkLeaks (tag : Str) : Msg → Bool
  | Msg.textChunk _ t => decide (tag <:+: t)
  | _ => false

/-- The `response_text` payloads of the `response_meta` messages of a trace. -/
def metaTexts (msgs : List Msg) : List Str :=
  msgs.filterMap (fun m =>
    match m with
    | Msg.responseMeta _ t _ _ _ => some t
    | _ => none)

/-- A model stream carrying a `[memory:...]` directive in the body text. -/
def c2Stream : List Str :=
  ["[emotion:happy] Hola [memory:fact:le gusta el cafe] adios".toList]

/-! ### `repositories/memory.py` — privacy gate and expiry filtering -/

/-- `str.lower` restricted to the alphabet of the privacy-keyword list:
ASCII letters plus the accented Spanish letters appearing in stored text. -/
def pyLowerChar (c : Char) : Char :=
  match (lcTable ++
      [('Á', 'á'), ('É', 'é'), ('Í', 'í'), ('Ó', 'ó'), ('Ú', 'ú'),
       ('Ñ', 'ñ'), ('Ü', 'ü')]).find? (fun p => p.1 = c) with
  | some p => p.2
  | none => c

def pyLower (s : Str) : Str := s.map pyLowerChar

/-- `_PRIVACY_KEYWORDS` (`repositories/memory.py` lines 25–53). -/
def PRIVACY_KEYWORDS : List Str :=
  ["contraseña".toList, "password".toList, "clave".toList, "pin".toList,
   "tarjeta".toList, "crédito".toList, "débito".toList,
   "cuenta bancaria".toList, "dni".toList, "pasaporte".toList,
   "número de seguridad".toList, "seguridad social".toList,
   "dirección".toList, "domicilio".toList,
   "medicamento".toList, "diagnóstico".toList, "enfermedad".toList,
   "tratamiento".toList,
   "address".toList, "passport".toList, "credit card".toList,
   "debit card".toList, "bank account".toList, "social security".toList,
   "medication".toList, "diagnosis".toList]

/-- `is_private` (`repositories/memory.py` lines 60–67): case-insensitive
keyword containment. -/
def is_private (content : Str) : Bool :=
  PRIVACY_KEYWORDS.any (fun kw => decide (kw <:+: pyLower content))

/-- A row of the `memories` table (`db.py`), with times as abstract ticks. -/
structure MemoryRow where
  id : Nat
  user_id : String
  memory_type : String
  content : Str
  importance : Int
  timestamp : Nat
  expires_at : Option Nat
deriving DecidableEq, Repr

/-- The SQL predicate `expires_at IS NULL OR expires_at > now`. -/
def notExpired (now : Nat) (e : Option Nat) : Bool :=
  match e with
  | none => true
  | some t => decide (now < t)

/-- Insertion step of the ORDER-BY model sort. -/
def insertBy (le : MemoryRow → MemoryRow → Bool) (a : MemoryRow) :
    List MemoryRow → List MemoryRow
  | [] => [a]
  | b :: l => if le a b then a :: b :: l else b :: insertBy le a l

/-- `ORDER BY` as a structural insertion sort over the row list. -/
def sortBy (le : MemoryRow → MemoryRow → Bool) (l : List MemoryRow) :
    List MemoryRow :=
  l.foldr (insertBy le) []

namespace MemoryRepository

/-- `MemoryRepository.save` (`repositories/memory.py` lines 92–119): the
privacy gate, then an insert; returns the stored row (the session is the
row list, passed and returned explicitly). -/
def save (db : List MemoryRow) (nextId now : Nat) (user_id memory_type : String)
    (content : Str) (importance : Int) (expires_at : Option Nat) :
    Option MemoryRow × List MemoryRow :=
  if is_private content then (none, db)
  else
    let row : MemoryRow :=
      { id := nextId, user_id := user_id, memory_type := memory_type,
        content := content, importance := importance, timestamp := now,
        expires_at := expires_at }
    (some row, db ++ [row])

/-- Sort key of `get_for_user`: importance DESC, timestamp DESC. -/
def memOrder (a b : MemoryRow) : Bool :=
  decide (b.importance < a.importance) ||
    (decide (a.importance = b.importance) && decide (b.timestamp ≤ a.timestamp))

/-- `MemoryRepository.get_for_user` (`repositories/memory.py` lines 121–141). -/
def get_for_user (db : List MemoryRow) (now : Nat) (user_id : String)
    (include_expired : Bool) : List MemoryRow :=
  sortBy memOrder (db.filter (fun r => r.user_id == user_id &&
      (include_expired || notExpired now r.expires_at)))

/-- `MemoryRepository.get_recent_important` (`repositories/memory.py`
lines 143–165). -/
def get_recent_important (db : List MemoryRow) (now : Nat) (user_id : String)
    (min_importance : Int) (limit : Nat) : List MemoryRow :=
  (sortBy (fun a b => decide (b.timestamp ≤ a.timestamp))
    (db.filter (fun r => r.user_id == user_id &&
      decide (min_importance ≤ r.importance) &&
      notExpired now r.expires_at))).take limit

end MemoryRepository

/-- A never-expiring low-importance memory of user `"u"`. -/
def c7Row : MemoryRow :=
  { id := 1, user_id := "u", memory_type := "fact", content := "cafe".toList,
    importance := 1, timestamp := 10, expires_at := none }

/-! ### `repositories/people.py` — people and face embeddings -/

/-- A row of the `people` table (`db.py` lines 90–106). -/
structure PersonRow where
  id : Nat
  person_id : String
  name : String
  first_seen : Nat
  last_seen : Nat
  interaction_count : Nat
  notes : String
deriving DecidableEq, Repr

/-- A row of the `face_embeddings` table (`db.py` lines 110–129). -/
structure FaceEmbeddingRow where
  id : Nat
  person_id : String
  embedding : List Nat
  captured_at : Nat
  source_lighting : Option String
deriving DecidableEq, Repr

/-- The two tables the repository touches. -/
structure PeopleDB where
  people : List PersonRow
  embeddings : List FaceEmbeddingRow
deriving DecidableEq, Repr

namespace PeopleRepository

/-- `PeopleRepository.get_by_person_id` (`people.py` lines 71–77). -/
def get_by_person_id (db : PeopleDB) (person_id : String) : Option PersonRow :=
  db.people.find? (fun r => r.person_id == person_id)

/-- `PeopleRepository.create` (`people.py` lines 54–69): the column defaults
of `db.py` give `interaction_count = 0` and `first_seen = last_seen = now`. -/
def create (db : PeopleDB) (nextId now : Nat) (person_id name notes : String) :
    PersonRow × PeopleDB :=
  let row : PersonRow :=
    { id := nextId, person_id := person_id, name := name, first_seen := now,
      last_seen := now, interaction_count := 0, notes := notes }
  (row, { db with people := db.people ++ [row] })

/-- `PeopleRepository.get_or_create` (`people.py` lines 79–98). -/
def get_or_create (db : PeopleDB) (nextId now : Nat) (person_id name : String) :
    (PersonRow × Bool) × PeopleDB :=
  match get_by_person_id db person_id with
  | none =>
    let r := create db nextId now person_id name ""
    ((r.1, true), r.2)
  | some row =>
    let row2 := { row with last_seen := now,
                           interaction_count := row.interaction_count + 1 }
    ((row2, false),
     { db with people :=
         db.people.map (fun r => if r.person_id == person_id then row2 else r) })

/-- `PeopleRepository.update_name` (`people.py` lines 100–111). -/
def update_name (db : PeopleDB) (person_id name : String) :
    Option PersonRow × PeopleDB :=
  match get_by_person_id db person_id with
  | none => (none, db)
  | some row =>
    let row2 := { row with name := name }
    (some row2,
     { db with people :=
         db.people.map (fun r => if r.person_id == person_id then row2 else r) })

/-- `PeopleRepository.update_notes` (`people.py` lines 113–121). -/
def update_notes (db : PeopleDB) (person_id notes : String) : PeopleDB :=
  match get_by_person_id db person_id with
  | none => db
  | some row =>
    let row2 := { row with notes := notes }
    { db with people :=
        db.people.map (fun r => if r.person_id == person_id then row2 else r) }

/-- `PeopleRepository.delete` (`people.py` lines 130–141); the `CASCADE` of
`db.py` removes the person's embeddings with it. -/
def delete (db : PeopleDB) (person_id : String) : Bool × PeopleDB :=
  match get_by_person_id db person_id with
  | none => (false, db)
  | some _ =>
    (true,
     { people := db.people.filter (fun r => !(r.person_id == person_id)),
       embeddings := db.embeddings.filter (fun e => !(e.person_id == person_id)) })

/-- `PeopleRepository.add_embedding` (`people.py` lines 144–166): a raised
`ValueError` is the `.error` case, leaving the session untouched. -/
def add_embedding (db : PeopleDB) (nextId now : Nat) (person_id : String)
    (embedding : List Nat) (source_lighting : Option String) :
    Except String FaceEmbeddingRow × PeopleDB :=
  match get_by_person_id db person_id with
  | none => (.error ("Persona \x27" ++ person_id ++ "\x27 no encontrada"), db)
  | some _ =>
    let row : FaceEmbeddingRow :=
      { id := nextId, person_id := person_id, embedding := embedding,
        captured_at := now, source_lighting := source_lighting }
    (.ok row, { db with embeddings := db.embeddings ++ [row] })

end PeopleRepository

/-- One state-changing call into `PeopleRepository`. -/
inductive PeopleOp where
  | createOp (nextId now : Nat) (pid name notes : String)
  | getOrCreateOp (nextId now : Nat) (pid name : String)
  | updateNameOp (pid name : String)
  | updateNotesOp (pid notes : String)
  | deleteOp (pid : String)
  | addEmbeddingOp (nextId now : Nat) (pid : String) (emb : List Nat)
      (lighting : Option String)
deriving DecidableEq, Repr

/-- The database after one repository call. -/
def applyPeople (db : PeopleDB) : PeopleOp → PeopleDB
  | .createOp nextId now pid name notes =>
    (PeopleRepository.create db nextId now pid name notes).2
  | .getOrCreateOp nextId now pid name =>
    (PeopleRepository.get_or_create db nextId now pid name).2
  | .updateNameOp pid name => (PeopleRepository.update_name db pid name).2
  | .updateNotesOp pid notes => PeopleRepository.update_notes db pid notes
  | .deleteOp pid => (PeopleRepository.delete db pid).2
  | .addEmbeddingOp nextId now pid emb lighting =>
    (PeopleRepository.add_embedding db nextId now pid emb lighting).2

/-- A known person with three interactions on record. -/
def c8Person : PersonRow :=
  { id := 1, person_id := "persona_juan_01", name := "Juan", first_seen := 0,
    last_seen := 0, interaction_count := 3, notes := "" }

/-- A database holding just `c8Person`. -/
def c8Db : PeopleDB := { people := [c8Person], embeddings := [] }

/-! ### `ws_interact` (`streaming.py` lines 100–457) — the dispatch loop -/

/-- Whether the model stream of a turn completes or raises mid-stream
(after yielding the given chunks). -/
inductive AgentResult where
  | completes (chunks : List Str)
  | raises (chunks : List Str)
deriving DecidableEq, Repr

/-- One message received by the dispatch loop, carrying the behaviour of
the environment for that turn where relevant. -/
inductive ClientEvent where
  | disconnect
  | audioFrame (bs : List Nat)
  | interactionStart (personId : Option String) (reqId : Option String)
  | textMsg (reqId : Option String) (content : String) (result : AgentResult)
  | audioEnd (reqId : Option String) (result : AgentResult)
  | raiseOuter
deriving DecidableEq, Repr

/-- The per-session mutable state of `ws_interact`, with the transcript of
messages handed to `_send_safe` and whether the loop has ended. -/
structure SessState where
  person : Option String
  requestId : String
  audioBuffer : List Nat
  msgs : List Msg
  closed : Bool
deriving DecidableEq, Repr

/-- The `request_id` refresh of the `text`/`audio_end` branches
(`streaming.py` lines 174–178, 196–200): `or` treats the empty current id
and an absent/empty field as falsy. -/
def updReq (cur : String) (given : Option String) (fresh : String) : String :=
  if cur = "" then
    match given with
    | some g => g
    | none => fresh
  else
    match given with
    | some g => g
    | none => cur

/-- The transcript of one `_process_interaction` call. -/
def interactionMsgs (person : Option String) (reqId : String) :
    AgentResult → List Msg
  | .completes chunks => (processInteraction person reqId chunks).msgs
  | .raises chunks => processInteractionRaising person reqId chunks

/-- One iteration of the dispatch loop of `ws_interact`: binary frames
accumulate audio, `interaction_start` resets the turn, `text` runs a cycle
when content is non-empty, `audio_end` runs a cycle or rejects an empty
buffer, a client disconnect ends the loop, and an exception reaching the
loop sends one non-recoverable `INTERNAL_ERROR` and ends it. -/
def dispatchStep (fresh : String) (st : SessState) (ev : ClientEvent) :
    SessState :=
  if st.closed then st
  else
    match ev with
    | .disconnect => { st with closed := true }
    | .audioFrame bs => { st with audioBuffer := st.audioBuffer ++ bs }
    | .interactionStart personId reqId =>
      { st with person := personId,
                requestId := (match reqId with | some g => g | none => fresh),
                audioBuffer := [] }
    | .textMsg reqId content result =>
      let rid := updReq st.requestId reqId fresh
      if content = "" then { st with requestId := rid }
      else { st with requestId := rid,
                     msgs := st.msgs ++ interactionMsgs st.person rid result }
    | .audioEnd reqId result =>
      let rid := updReq st.requestId reqId fresh
      if st.audioBuffer = [] then
        { st with requestId := rid,
                  msgs := st.msgs ++
                    [Msg.error "EMPTY_AUDIO" "No se recibieron datos de audio"
                      true (some rid)] }
      else
        { st with requestId := rid, audioBuffer := [],
                  msgs := st.msgs ++ interactionMsgs st.person rid result }
    | .raiseOuter =>
      { st with closed := true,
                msgs := st.msgs ++
                  [Msg.error "INTERNAL_ERROR" "Error interno del servidor"
                    false none] }

/-- The whole session loop over the received events. -/
def wsLoop (fresh : String) (st : SessState) (evs : List ClientEvent) :
    SessState :=
  evs.foldl (dispatchStep fresh) st

/-- Is a message an `error`? -/
def isErrorMsg : Msg → Bool
  | Msg.error _ _ _ _ => true
  | _ => false

/-- Is a message a `stream_end`? -/
def isStreamEnd : Msg → Bool
  | Msg.streamEnd _ => true
  | _ => false

/-- Is a message a `text_chunk`? -/
def isTextChunkMsg : Msg → Bool
  | Msg.textChunk _ _ => true
  | _ => false

/-- Is a message one the decode loop itself can emit? -/
def isDecodeMsg : Msg → Bool
  | Msg.emotion _ _ _ => true
  | Msg.textChunk _ _ => true
  | _ => false

/-! ### `_send_safe` (`streaming.py` lines 939–945) -/

/-- The client-side connection state `websocket.client_state`. -/
inductive WsState where
  | connected
  | disconnected
deriving DecidableEq, Repr

/-- The body of `_send_safe`'s `try`: `send_text` happens only when the
state is CONNECTED, and may itself fail (`sendFails`). `.ok (some text)`
is a delivered message, `.ok none` a skipped send. -/
def sendAttempt (cs : WsState) (sendFails : Bool) (text : String) :
    Except String (Option String) :=
  if cs = .connected then
    (if sendFails then .error "send failed" else .ok (some text))
  else .ok none

/-- `_send_safe`: the `except` swallows every failure of the attempt. -/
def sendSafe (cs : WsState) (sendFails : Bool) (text : String) :
    Option String :=
  match sendAttempt cs sendFails text with
  | .ok r => r
  | .error _ => none

/-- Characters outside the image of the lower-case table are fixed points of
`lc` in the strong sense: only the character itself lower-cases to it. -/
theorem lc_eq_of_not_image {d : Char}
    (hd : lcTable.all (fun p => p.2 ≠ d) = true) :
    ∀ {c : Char}, lc c = d → c = d := by
  intro c h
  unfold lc at h
  cases hfind : lcTable.find? (fun p => p.1 = c) with
  | none => rw [hfind] at h; exact h
  | some pr =>
    rw [hfind] at h
    have hmem := List.mem_of_find?_eq_some hfind
    have := List.all_eq_true.mp hd pr hmem
    simp only [ne_eq, decide_eq_true_eq] at this
    exact absurd h this

/-- `lc` fixes `'['`: only `'['` lower-cases to `'['`. -/
theorem lc_eq_lbracket {c : Char} (h : lc c = '[') : c = '[' :=
  lc_eq_of_not_image (by decide) h

/-- `lc` fixes `']'`: only `']'` lower-cases to `']'`. -/
theorem lc_eq_rbracket {c : Char} (h : lc c = ']') : c = ']' :=
  lc_eq_of_not_image (by decide) h

theorem ciIsPrefix_length {pat s : Str} (h : ciIsPrefix pat s = true) :
    pat.length ≤ s.length := by
  induction pat generalizing s with
  | nil => simp
  | cons p ps ih =>
    cases s with
    | nil => simp [ciIsPrefix] at h
    | cons c cs =>
      simp only [ciIsPrefix, Bool.and_eq_true] at h
      simpa [Nat.succ_le_succ_iff] using ih h.2

theorem ciIsPrefix_append {pat s t : Str} (h : ciIsPrefix pat s = true) :
    ciIsPrefix pat (s ++ t) = true := by
  induction pat generalizing s with
  | nil => simp [ciIsPrefix]
  | cons p ps ih =>
    cases s with
    | nil => simp [ciIsPrefix] at h
    | cons c cs =>
      simp only [ciIsPrefix, Bool.and_eq_true] at h ⊢
      exact ⟨h.1, ih h.2⟩

/-- If the pattern fits inside `s`, appending more text does not change the
case-insensitive prefix test. -/
theorem ciIsPrefix_append_stable {pat s t : Str} (hlen : pat.length ≤ s.length) :
    ciIsPrefix pat (s ++ t) = ciIsPrefix pat s := by
  induction pat generalizing s with
  | nil => simp [ciIsPrefix]
  | cons p ps ih =>
    cases s with
    | nil => simp at hlen
    | cons c cs =>
      simp only [List.length_cons, Nat.succ_le_succ_iff] at hlen
      simp only [List.cons_append, ciIsPrefix, List.append_eq]
      rw [ih hlen]

/-- A close bracket cannot occur in the part of `s` that case-insensitively
matches a bracket-free pattern that is longer than `s`. -/
theorem not_mem_rbracket_of_ciIsPrefix {pat s t : Str}
    (h : ciIsPrefix pat (s ++ t) = true)
    (hpat : pat.all (fun p => p ≠ ']') = true)
    (hlen : s.length < pat.length) : ']' ∉ s := by
  induction pat generalizing s with
  | nil => simp at hlen
  | cons p ps ih =>
    cases s with
    | nil => simp
    | cons c cs =>
      simp only [List.cons_append, ciIsPrefix, Bool.and_eq_true] at h
      simp only [List.all_cons, Bool.and_eq_true] at hpat
      simp only [List.length_cons, Nat.succ_lt_succ_iff] at hlen
      intro hmem
      rcases List.mem_cons.mp hmem with hc | hc
      · subst hc
        have : (']' : Char) = ']' := rfl
        have hlc : lc ']' = p := by
          have := h.1; simpa using this
        have : p = ']' := by
          have : lc ']' = ']' := by decide
          rw [this] at hlc; exact hlc.symm
        simp [this] at hpat
      · exact ih h.2 hpat.2 hlen hc

theorem dropWhile_append_of_ne_nil {p : Char → Bool} {s t : Str}
    (h : s.dropWhile p ≠ []) :
    (s ++ t).dropWhile p = s.dropWhile p ++ t := by
  induction s with
  | nil => simp at h
  | cons c cs ih =>
    by_cases hc : p c
    · simp only [List.dropWhile_cons, hc, if_true] at h ⊢
      simp only [List.cons_append, List.dropWhile_cons, hc, if_true]
      exact ih h
    · simp_all [List.dropWhile_cons]

theorem takeWhile_append_of_ne_nil {p : Char → Bool} {s t : Str}
    (h : s.dropWhile p ≠ []) :
    (s ++ t).takeWhile p = s.takeWhile p := by
  induction s with
  | nil => simp at h
  | cons c cs ih =>
    by_cases hc : p c
    · simp only [List.dropWhile_cons, hc, if_true] at h
      simp only [List.cons_append, List.takeWhile_cons, hc, if_true]
      rw [ih h]
    · simp [List.takeWhile_cons, hc]

theorem lstrip_append_of_ne_nil {s t : Str} (h : lstrip s ≠ []) :
    lstrip (s ++ t) = lstrip s ++ t :=
  dropWhile_append_of_ne_nil h

/-- If `']'` occurs in `s` then the scan that skips non-`']'` characters
stops inside `s`. -/
theorem dropWhile_ne_rbracket_ne_nil {s : Str} (h : ']' ∈ s) :
    s.dropWhile (fun c => c ≠ ']') ≠ [] := by
  intro hnil
  have := List.dropWhile_eq_nil_iff.mp hnil ']' h
  simp at this

theorem splitClose_none_iff {s : Str} : splitClose s = none ↔ ']' ∉ s := by
  unfold splitClose
  split <;> simp_all

theorem splitClose_append_some {s t : Str} {c r : Str}
    (h : splitClose s = some (c, r)) :
    splitClose (s ++ t) = some (c, r ++ t) := by
  unfold splitClose at h ⊢
  split at h
  · next hmem =>
    have hne := dropWhile_ne_rbracket_ne_nil hmem
    have hmem' : (']' : Char) ∈ s ++ t := List.mem_append_left _ hmem
    rw [if_pos hmem']
    simp only [Option.some.injEq, Prod.mk.injEq] at h ⊢
    obtain ⟨hc, hr⟩ := h
    subst hc hr
    rw [takeWhile_append_of_ne_nil hne, dropWhile_append_of_ne_nil hne]
    cases hd : s.dropWhile (fun c => c ≠ ']') with
    | nil => exact absurd hd hne
    | cons x xs => simp [hd]
  · exact absurd h (by simp)

theorem wordSplit_append_some {s t : Str} {w r : Str}
    (h : wordSplit s = some (w, r)) :
    wordSplit (s ++ t) = some (w, r ++ t) := by
  unfold wordSplit at h ⊢
  split at h
  · next hcond =>
    obtain ⟨hw, hhead⟩ := hcond
    have hne : s.dropWhile wordChar ≠ [] := by
      intro hnil; rw [hnil] at hhead; simp at hhead
    simp only [Option.some.injEq, Prod.mk.injEq] at h
    obtain ⟨hw', hr⟩ := h
    subst hw' hr
    rw [if_pos]
    · rw [takeWhile_append_of_ne_nil hne, dropWhile_append_of_ne_nil hne]
      cases hd : s.dropWhile wordChar with
      | nil => exact absurd hd hne
      | cons x xs => simp [hd]
    · constructor
      · rw [takeWhile_append_of_ne_nil hne]; exact hw
      · rw [dropWhile_append_of_ne_nil hne]
        cases hd : s.dropWhile wordChar with
        | nil => exact absurd hd hne
        | cons x xs => rw [hd] at hhead; simpa using hhead
  · exact absurd h (by simp)

theorem wordSplit_append_none {s t : Str} (hmem : ']' ∈ s)
    (h : wordSplit s = none) : wordSplit (s ++ t) = none := by
  unfold wordSplit at h ⊢
  have hne : s.dropWhile wordChar ≠ [] := by
    intro hnil
    have := List.dropWhile_eq_nil_iff.mp hnil ']' hmem
    simp [wordChar] at this
  rw [takeWhile_append_of_ne_nil hne, dropWhile_append_of_ne_nil hne]
  split at h
  · exact absurd h (by simp)
  · next hcond =>
    rw [if_neg]
    intro hcond'
    apply hcond
    obtain ⟨hw, hhead⟩ := hcond'
    refine ⟨hw, ?_⟩
    cases hd : s.dropWhile wordChar with
    | nil => exact absurd hd hne
    | cons x xs =>
      rw [hd] at hhead
      have hx : x = ']' := by simpa using hhead
      simp [hx]

theorem rbracket_mem_drop_of_ciIsPrefix {pat s : Str}
    (h : ciIsPrefix pat s = true) (hpat : pat.all (fun p => p ≠ ']') = true)
    (hmem : ']' ∈ s) : ']' ∈ s.drop pat.length := by
  induction pat generalizing s with
  | nil => simpa using hmem
  | cons p ps ih =>
    cases s with
    | nil => simp at hmem
    | cons c cs =>
      simp only [ciIsPrefix, Bool.and_eq_true, decide_eq_true_eq] at h
      simp only [List.all_cons, Bool.and_eq_true, ne_eq, decide_eq_true_eq] at hpat
      rcases List.mem_cons.mp hmem with hc | hc
      · exfalso
        have : lc ']' = p := hc ▸ h.1
        have : p = ']' := by
          have hfix : lc ']' = ']' := by decide
          rw [hfix] at this; exact this.symm
        exact hpat.1 this
      · simpa using ih h.2 (by simpa [List.all_eq_true] using hpat.2) hc

/-! ### Chunk-extension stability of the tag parsers

The decoder re-parses its growing header buffer each time a chunk arrives.
These lemmas say that once the parse is past the loop's guard conditions
(a close bracket has been seen; the remaining text is nonempty and not a
still-open tag), appending further stream text does not change the parsed
values and merely extends the returned remainder. -/

theorem parse_emotion_tag_fst_stable {s t : Str} (hmem : ']' ∈ s) :
    (parse_emotion_tag (s ++ t)).1 = (parse_emotion_tag s).1 := by
  unfold parse_emotion_tag
  by_cases hp : ciIsPrefix emotOpen s = true
  · have hlen : emotOpen.length ≤ s.length := ciIsPrefix_length hp
    rw [if_pos hp, if_pos (ciIsPrefix_append hp)]
    have hdrop : (s ++ t).drop 9 = s.drop 9 ++ t :=
      List.drop_append_of_le_length hlen
    rw [hdrop]
    cases hw : wordSplit (s.drop 9) with
    | some pr =>
      obtain ⟨w, r⟩ := pr
      rw [wordSplit_append_some hw]
    | none =>
      have hmem9 : ']' ∈ s.drop 9 :=
        rbracket_mem_drop_of_ciIsPrefix hp (by decide) hmem
      rw [wordSplit_append_none hmem9 hw]
  · have hp' : ciIsPrefix emotOpen (s ++ t) = false := by
      by_cases hlen : emotOpen.length ≤ s.length
      · rw [ciIsPrefix_append_stable hlen]; simpa using hp
      · by_contra hcontra
        simp only [Bool.not_eq_false] at hcontra
        exact not_mem_rbracket_of_ciIsPrefix hcontra (by decide)
          (Nat.lt_of_not_le hlen) hmem
    rw [if_neg (by simp [hp']), if_neg (by simpa using hp)]

theorem parse_emotion_tag_snd_stable {s t : Str} (hmem : ']' ∈ s)
    (hne : (parse_emotion_tag s).2 ≠ []) :
    (parse_emotion_tag (s ++ t)).2 = (parse_emotion_tag s).2 ++ t := by
  unfold parse_emotion_tag at hne ⊢
  by_cases hp : ciIsPrefix emotOpen s = true
  · have hlen : emotOpen.length ≤ s.length := ciIsPrefix_length hp
    rw [if_pos hp, if_pos (ciIsPrefix_append hp)] at *
    have hdrop : (s ++ t).drop 9 = s.drop 9 ++ t :=
      List.drop_append_of_le_length hlen
    rw [hdrop]
    cases hw : wordSplit (s.drop 9) with
    | some pr =>
      obtain ⟨w, r⟩ := pr
      rw [wordSplit_append_some hw]
      rw [hw] at hne
      simp only at hne ⊢
      exact lstrip_append_of_ne_nil hne
    | none =>
      have hmem9 : ']' ∈ s.drop 9 :=
        rbracket_mem_drop_of_ciIsPrefix hp (by decide) hmem
      rw [wordSplit_append_none hmem9 hw]
  · have hp' : ciIsPrefix emotOpen (s ++ t) = false := by
      by_cases hlen : emotOpen.length ≤ s.length
      · rw [ciIsPrefix_append_stable hlen]; simpa using hp
      · by_contra hcontra
        simp only [Bool.not_eq_false] at hcontra
        exact not_mem_rbracket_of_ciIsPrefix hcontra (by decide)
          (Nat.lt_of_not_le hlen) hmem
    rw [if_neg (by simp [hp']), if_neg (by simpa using hp)]

/-- Splitting the guard: a nonempty, non-partial text either does not start
with `'['` or contains a close bracket. -/
theorem of_not_partialTag {s : Str} (hs : s ≠ []) (h : partialTag s = false) :
    s.head? ≠ some '[' ∨ ']' ∈ s := by
  unfold partialTag at h
  simp only [Bool.and_eq_false_iff, decide_eq_false_iff_not] at h
  rcases h with h | h
  · exact Or.inl h
  · right
    simpa using h

/-- A text whose head is not `'['` cannot case-insensitively start one of the
bracket patterns, and neither can any extension of it. -/
theorem ciIsPrefix_false_of_head_ne {pat s t : Str}
    (hpat : pat.head? = some '[') (hs : s ≠ []) (hh : s.head? ≠ some '[') :
    ciIsPrefix pat (s ++ t) = false := by
  cases pat with
  | nil => simp at hpat
  | cons q qs =>
    cases s with
    | nil => exact absurd rfl hs
    | cons c cs =>
      have hq : q = '[' := by simpa using hpat
      simp only [List.cons_append, ciIsPrefix, Bool.and_eq_false_iff]
      left
      simp only [decide_eq_false_iff_not]
      intro hlc
      apply hh
      rw [hq] at hlc
      simp [lc_eq_lbracket hlc]

theorem parse_emojis_tag_fst_stable {s t : Str} (hs : s ≠ [])
    (hnp : partialTag s = false) :
    (parse_emojis_tag (s ++ t)).1 = (parse_emojis_tag s).1 := by
  rcases of_not_partialTag hs hnp with hh | hmem
  · -- head is not '[': neither `s` nor `s ++ t` starts the tag
    have h1 : ciIsPrefix emojOpen (s ++ t) = false :=
      ciIsPrefix_false_of_head_ne (by decide) hs hh
    have h2 : ciIsPrefix emojOpen s = false := by
      have := @ciIsPrefix_false_of_head_ne emojOpen _ []
        (by decide) hs hh
      simpa using this
    unfold parse_emojis_tag
    rw [if_neg (by simp [h1]), if_neg (by simp [h2])]
  · unfold parse_emojis_tag
    by_cases hp : ciIsPrefix emojOpen s = true
    · have hlen : emojOpen.length ≤ s.length := ciIsPrefix_length hp
      rw [if_pos hp, if_pos (ciIsPrefix_append hp)]
      have hdrop : (s ++ t).drop 8 = s.drop 8 ++ t :=
        List.drop_append_of_le_length hlen
      rw [hdrop]
      cases hc : splitClose (s.drop 8) with
      | some pr =>
        obtain ⟨content, r⟩ := pr
        rw [splitClose_append_some hc]
      | none =>
        exfalso
        have hmem8 : ']' ∈ s.drop 8 :=
          rbracket_mem_drop_of_ciIsPrefix hp (by decide) hmem
        exact (splitClose_none_iff.mp hc) hmem8
    · have hp' : ciIsPrefix emojOpen (s ++ t) = false := by
        by_cases hlen : emojOpen.length ≤ s.length
        · rw [ciIsPrefix_append_stable hlen]; simpa using hp
        · by_contra hcontra
          simp only [Bool.not_eq_false] at hcontra
          exact not_mem_rbracket_of_ciIsPrefix hcontra (by decide)
            (Nat.lt_of_not_le hlen) hmem
      rw [if_neg (by simp [hp']), if_neg (by simpa using hp)]

theorem parse_emojis_tag_snd_stable {s t : Str} (hs : s ≠ [])
    (hnp : partialTag s = false) (hne : (parse_emojis_tag s).2 ≠ []) :
    (parse_emojis_tag (s ++ t)).2 = (parse_emojis_tag s).2 ++ t := by
  rcases of_not_partialTag hs hnp with hh | hmem
  · have h1 : ciIsPrefix emojOpen (s ++ t) = false :=
      ciIsPrefix_false_of_head_ne (by decide) hs hh
    have h2 : ciIsPrefix emojOpen s = false := by
      have := @ciIsPrefix_false_of_head_ne emojOpen _ []
        (by decide) hs hh
      simpa using this
    unfold parse_emojis_tag
    rw [if_neg (by simp [h1]), if_neg (by simp [h2])]
  · unfold parse_emojis_tag at hne ⊢
    by_cases hp : ciIsPrefix emojOpen s = true
    · have hlen : emojOpen.length ≤ s.length := ciIsPrefix_length hp
      rw [if_pos hp] at hne
      rw [if_pos hp, if_pos (ciIsPrefix_append hp)]
      have hdrop : (s ++ t).drop 8 = s.drop 8 ++ t :=
        List.drop_append_of_le_length hlen
      rw [hdrop]
      cases hc : splitClose (s.drop 8) with
      | some pr =>
        obtain ⟨content, r⟩ := pr
        rw [splitClose_append_some hc]
        rw [hc] at hne
        simp only at hne ⊢
        exact lstrip_append_of_ne_nil hne
      | none =>
        exfalso
        have hmem8 : ']' ∈ s.drop 8 :=
          rbracket_mem_drop_of_ciIsPrefix hp (by decide) hmem
        exact (splitClose_none_iff.mp hc) hmem8
    · have hp' : ciIsPrefix emojOpen (s ++ t) = false := by
        by_cases hlen : emojOpen.length ≤ s.length
        · rw [ciIsPrefix_append_stable hlen]; simpa using hp
        · by_contra hcontra
          simp only [Bool.not_eq_false] at hcontra
          exact not_mem_rbracket_of_ciIsPrefix hcontra (by decide)
            (Nat.lt_of_not_le hlen) hmem
      rw [if_neg (by simp [hp']), if_neg (by simpa using hp)]

theorem parse_actions_tag_fst_stable {s t : Str} (hs : s ≠ [])
    (hnp : partialTag s = false) :
    (parse_actions_tag (s ++ t)).1 = (parse_actions_tag s).1 := by
  rcases of_not_partialTag hs hnp with hh | hmem
  · have h1 : ciIsPrefix actOpen (s ++ t) = false :=
      ciIsPrefix_false_of_head_ne (by decide) hs hh
    have h2 : ciIsPrefix actOpen s = false := by
      have := @ciIsPrefix_false_of_head_ne actOpen _ []
        (by decide) hs hh
      simpa using this
    unfold parse_actions_tag
    rw [if_neg (by simp [h1]), if_neg (by simp [h2])]
  · unfold parse_actions_tag
    by_cases hp : ciIsPrefix actOpen s = true
    · have hlen : actOpen.length ≤ s.length := ciIsPrefix_length hp
      rw [if_pos hp, if_pos (ciIsPrefix_append hp)]
      have hdrop : (s ++ t).drop 9 = s.drop 9 ++ t :=
        List.drop_append_of_le_length hlen
      rw [hdrop]
      cases hc : splitClose (s.drop 9) with
      | some pr =>
        obtain ⟨content, r⟩ := pr
        rw [splitClose_append_some hc]
      | none =>
        exfalso
        have hmem9 : ']' ∈ s.drop 9 :=
          rbracket_mem_drop_of_ciIsPrefix hp (by decide) hmem
        exact (splitClose_none_iff.mp hc) hmem9
    · have hp' : ciIsPrefix actOpen (s ++ t) = false := by
        by_cases hlen : actOpen.length ≤ s.length
        · rw [ciIsPrefix_append_stable hlen]; simpa using hp
        · by_contra hcontra
          simp only [Bool.not_eq_false] at hcontra
          exact not_mem_rbracket_of_ciIsPrefix hcontra (by decide)
            (Nat.lt_of_not_le hlen) hmem
      rw [if_neg (by simp [hp']), if_neg (by simpa using hp)]

theorem parse_actions_tag_snd_stable {s t : Str} (hs : s ≠ [])
    (hnp : partialTag s = false) (hne : (parse_actions_tag s).2 ≠ []) :
    (parse_actions_tag (s ++ t)).2 = (parse_actions_tag s).2 ++ t := by
  rcases of_not_partialTag hs hnp with hh | hmem
  · have h1 : ciIsPrefix actOpen (s ++ t) = false :=
      ciIsPrefix_false_of_head_ne (by decide) hs hh
    have h2 : ciIsPrefix actOpen s = false := by
      have := @ciIsPrefix_false_of_head_ne actOpen _ []
        (by decide) hs hh
      simpa using this
    unfold parse_actions_tag
    rw [if_neg (by simp [h1]), if_neg (by simp [h2])]
  · unfold parse_actions_tag at hne ⊢
    by_cases hp : ciIsPrefix actOpen s = true
    · have hlen : actOpen.length ≤ s.length := ciIsPrefix_length hp
      rw [if_pos hp] at hne
      rw [if_pos hp, if_pos (ciIsPrefix_append hp)]
      have hdrop : (s ++ t).drop 9 = s.drop 9 ++ t :=
        List.drop_append_of_le_length hlen
      rw [hdrop]
      cases hc : splitClose (s.drop 9) with
      | some pr =>
        obtain ⟨content, r⟩ := pr
        rw [splitClose_append_some hc]
        rw [hc] at hne
        simp only at hne ⊢
        exact lstrip_append_of_ne_nil hne
      | none =>
        exfalso
        have hmem9 : ']' ∈ s.drop 9 :=
          rbracket_mem_drop_of_ciIsPrefix hp (by decide) hmem
        exact (splitClose_none_iff.mp hc) hmem9
    · have hp' : ciIsPrefix actOpen (s ++ t) = false := by
        by_cases hlen : actOpen.length ≤ s.length
        · rw [ciIsPrefix_append_stable hlen]; simpa using hp
        · by_contra hcontra
          simp only [Bool.not_eq_false] at hcontra
          exact not_mem_rbracket_of_ciIsPrefix hcontra (by decide)
            (Nat.lt_of_not_le hlen) hmem
      rw [if_neg (by simp [hp']), if_neg (by simpa using hp)]

theorem length_dropWhile_le {p : Char → Bool} (s : Str) :
    (s.dropWhile p).length ≤ s.length := by
  induction s with
  | nil => simp
  | cons c cs ih =>
    by_cases hc : p c
    · simp only [List.dropWhile_cons, hc, if_true]
      exact Nat.le_succ_of_le ih
    · simp [List.dropWhile_cons, hc]

theorem splitClose_length_lt {s c r : Str} (h : splitClose s = some (c, r)) :
    r.length < s.length := by
  unfold splitClose at h
  split at h
  · next hmem =>
    simp only [Option.some.injEq, Prod.mk.injEq] at h
    obtain ⟨-, hr⟩ := h
    subst hr
    have hne := dropWhile_ne_rbracket_ne_nil hmem
    have hlen : (s.dropWhile (fun c => c ≠ ']')).length ≤ s.length :=
      length_dropWhile_le s
    cases hd : s.dropWhile (fun c => c ≠ ']') with
    | nil => exact absurd hd hne
    | cons x xs =>
      rw [hd] at hlen
      simp only [List.length_cons] at hlen
      simp only [hd, List.tail_cons]
      omega
  · exact absurd h (by simp)

theorem matchPersonName_length_lt {s g r : Str}
    (h : matchPersonName s = some (g, r)) : r.length < s.length := by
  unfold matchPersonName at h
  split at h
  · next hp =>
    have hlen : personOpen.length ≤ s.length := ciIsPrefix_length hp
    cases hc : splitClose (s.drop personOpen.length) with
    | none => rw [hc] at h; exact absurd h (by simp)
    | some pr =>
      obtain ⟨content, rest⟩ := pr
      rw [hc] at h
      have h2 : (if content ≠ [] then some (content, rest) else none) = some (g, r) := h
      by_cases hcontent : content = []
      · rw [if_neg (by simp [hcontent])] at h2
        exact absurd h2 (by simp)
      · rw [if_pos hcontent] at h2
        obtain ⟨-, hr⟩ : content = g ∧ rest = r := by simpa using h2
        subst hr
        have := splitClose_length_lt hc
        have hd : (s.drop personOpen.length).length = s.length - personOpen.length :=
          List.length_drop _ _
        simp only [hd] at this
        have : personOpen.length = 13 := by decide
        omega
  · exact absurd h (by simp)

theorem matchMemory_length_lt {s r : Str} (h : matchMemory s = some r) :
    r.length < s.length := by
  unfold matchMemory at h
  split at h
  · next hp =>
    have hlen : memOpen.length ≤ s.length := ciIsPrefix_length hp
    dsimp only at h
    split at h
    · next hcond =>
      obtain ⟨hty, hhead⟩ := hcond
      have ht2 : (s.drop memOpen.length).dropWhile (fun c => c.isAlpha || c = '_') ≠ [] := by
        intro hnil
        rw [hnil] at hhead; simp at hhead
      cases hc : splitClose ((s.drop memOpen.length).dropWhile (fun c => c.isAlpha || c = '_')).tail with
      | none => rw [hc] at h; exact absurd h (by simp)
      | some pr =>
        obtain ⟨content, rest⟩ := pr
        rw [hc] at h
        have hif : (if content ≠ [] then some rest else none) = some r := h
        by_cases hcontent : content = []
        · rw [if_neg (by simp [hcontent])] at hif
          exact absurd hif (by simp)
        · rw [if_pos hcontent] at hif
          have hsub : rest = r := Option.some.inj hif
          subst hsub
          have h1 := splitClose_length_lt hc
          have h2 : (((s.drop memOpen.length).dropWhile (fun c => c.isAlpha || c = '_')).tail).length <
              (s.drop memOpen.length).length + 1 := by
            have h3 : ((s.drop memOpen.length).dropWhile (fun c => c.isAlpha || c = '_')).length ≤
                (s.drop memOpen.length).length := length_dropWhile_le _
            cases hd : (s.drop memOpen.length).dropWhile (fun c => c.isAlpha || c = '_') with
            | nil => exact absurd hd ht2
            | cons x xs =>
              rw [hd] at h3
              simp only [List.length_cons] at h3
              simp only [hd, List.tail_cons]
              omega
          have hd : (s.drop memOpen.length).length = s.length - memOpen.length :=
            List.length_drop _ _
          have hm : memOpen.length = 8 := by decide
          omega
    · exact absurd h (by simp)
  · exact absurd h (by simp)

theorem dropWhile_tail_length_lt {p : Char → Bool} {s : Str}
    (h : (s.dropWhile p).head? = some ':') :
    (s.dropWhile p).tail.length < s.length + 1 := by
  have h3 : (s.dropWhile p).length ≤ s.length := length_dropWhile_le s
  cases hd : s.dropWhile p with
  | nil => rw [hd] at h; simp at h
  | cons x xs =>
    rw [hd] at h3
    simp only [List.length_cons] at h3
    simp only [hd, List.tail_cons]
    omega

theorem matchZone_length_lt {s r : Str} (h : matchZone s = some r) :
    r.length < s.length := by
  unfold matchZone at h
  split at h
  · next hp =>
    have hlen : zoneOpen.length ≤ s.length := ciIsPrefix_length hp
    dsimp only at h
    split at h
    · next hcond1 =>
      obtain ⟨-, hhead1⟩ := hcond1
      split at h
      · next hcond2 =>
        obtain ⟨-, hhead2⟩ := hcond2
        set t := s.drop zoneOpen.length with ht
        set t1tail := (t.dropWhile (fun c => c ≠ ':')).tail with ht1
        cases hc : splitClose ((t1tail.dropWhile (fun c => c ≠ ':')).tail) with
        | none => rw [hc] at h; exact absurd h (by simp)
        | some pr =>
          obtain ⟨content, rest⟩ := pr
          rw [hc] at h
          have hif : (if content ≠ [] then some rest else none) = some r := h
          by_cases hcontent : content = []
          · rw [if_neg (by simp [hcontent])] at hif
            exact absurd hif (by simp)
          · rw [if_pos hcontent] at hif
            have hsub : rest = r := Option.some.inj hif
            subst hsub
            have h1 := splitClose_length_lt hc
            have h2 := dropWhile_tail_length_lt (p := fun c => c ≠ ':') (s := t1tail) hhead2
            have h3 := dropWhile_tail_length_lt (p := fun c => c ≠ ':') (s := t) hhead1
            have hcd : t1tail.length = ((t.dropWhile (fun c => c ≠ ':')).tail).length := by
              rw [ht1]
            have hd : t.length = s.length - zoneOpen.length := List.length_drop _ _
            have hz : zoneOpen.length = 12 := by decide
            omega
      · exact absurd h (by simp)
    · exact absurd h (by simp)
  · exact absurd h (by simp)

/-- Fuel adequacy: for a matcher that always consumes at least one
character, any fuel of at least `s.length` computes the same result, so
`subAll` is the genuine unbounded left-to-right substitution. -/
theorem subAllAux_eq_of_le_fuel {m : Str → Option Str}
    (hm : ∀ s r, m s = some r → r.length < s.length) :
    ∀ n s fuel, s.length ≤ n → s.length ≤ fuel → subAllAux m fuel s = subAll m s := by
  intro n
  induction n with
  | zero =>
    intro s fuel hn _
    have : s = [] := List.eq_nil_of_length_eq_zero (Nat.le_zero.mp hn)
    subst this
    cases fuel <;> rfl
  | succ n ih =>
    intro s fuel hn hfuel
    cases s with
    | nil => cases fuel <;> rfl
    | cons c rest =>
      cases fuel with
      | zero => simp at hfuel
      | succ fuel =>
        simp only [List.length_cons] at hn hfuel
        unfold subAll
        simp only [List.length_cons]
        show subAllAux m (fuel + 1) (c :: rest) = subAllAux m (rest.length + 1) (c :: rest)
        unfold subAllAux
        cases hmatch : m (c :: rest) with
        | some r =>
          have hr := hm _ _ hmatch
          simp only [List.length_cons] at hr
          have h1 : subAllAux m fuel r = subAll m r :=
            ih r fuel (by omega) (by omega)
          have h2 : subAllAux m rest.length r = subAll m r :=
            ih r rest.length (by omega) (by omega)
          simp only [h1, h2]
        | none =>
          have h1 : subAllAux m fuel rest = subAll m rest :=
            ih rest fuel (by omega) (by omega)
          have h2 : subAllAux m rest.length rest = subAll m rest :=
            ih rest rest.length (by omega) (by omega)
          simp only [h1, h2]

theorem matchPersonNameSuffix_length_lt :
    ∀ s r, (matchPersonName s).map (fun x => x.2) = some r → r.length < s.length := by
  intro s r h
  cases hm : matchPersonName s with
  | none => rw [hm] at h; exact absurd h (by simp)
  | some pr =>
    obtain ⟨g, r'⟩ := pr
    rw [hm] at h
    have hsub : r' = r := by simpa using h
    subst hsub
    exact matchPersonName_length_lt hm

theorem partialTag_append_false {s t : Str} (hs : s ≠ [])
    (h : partialTag s = false) : partialTag (s ++ t) = false := by
  unfold partialTag at h ⊢
  cases s with
  | nil => exact absurd rfl hs
  | cons c cs =>
    simp only [List.cons_append, List.head?_cons] at h ⊢
    by_cases hc : c = '['
    · subst hc
      simp only [Bool.and_eq_false_iff] at h ⊢
      rcases h with h | h
      · simp at h
      · have hmem : (']' : Char) ∈ '[' :: cs := by simpa using h
        right
        have hmem2 : (']' : Char) ∈ '[' :: (cs ++ t) := by
          rcases List.mem_cons.mp hmem with h1 | h1
          · exact List.mem_cons.mpr (Or.inl h1)
          · exact List.mem_cons.mpr (Or.inr (List.mem_append_left t h1))
        have hgoal : ']' ∈ cs ∨ ']' ∈ t := by simpa using hmem2
        simpa using fun hnot => hgoal.resolve_left hnot
    · simp [hc]

theorem tagOf_stable {s t : Str} (hmem : ']' ∈ s) : tagOf (s ++ t) = tagOf s :=
  parse_emotion_tag_fst_stable hmem

theorem r1_stable {s t : Str} (hmem : ']' ∈ s) (hne : r1 s ≠ []) :
    r1 (s ++ t) = r1 s ++ t :=
  parse_emotion_tag_snd_stable hmem hne

theorem reachEm_mono {s t : Str} (h : reachEm s) : reachEm (s ++ t) := by
  obtain ⟨hmem, hne, hnp⟩ := h
  refine ⟨List.mem_append_left _ hmem, ?_, ?_⟩
  · rw [r1_stable hmem hne]
    simp [hne]
  · rw [r1_stable hmem hne]
    exact partialTag_append_false hne hnp

theorem emOf_stable {s t : Str} (h : reachEm s) : emOf (s ++ t) = emOf s := by
  obtain ⟨hmem, hne, hnp⟩ := h
  unfold emOf
  rw [r1_stable hmem hne]
  exact parse_emojis_tag_fst_stable hne hnp

theorem r2_stable {s t : Str} (h : reachEm s) (hne2 : r2 s ≠ []) :
    r2 (s ++ t) = r2 s ++ t := by
  obtain ⟨hmem, hne, hnp⟩ := h
  unfold r2
  rw [r1_stable hmem hne]
  exact parse_emojis_tag_snd_stable hne hnp (by exact hne2)

theorem reachAc_mono {s t : Str} (h : reachAc s) : reachAc (s ++ t) := by
  obtain ⟨hem, hne2, hnp2⟩ := h
  refine ⟨reachEm_mono hem, ?_, ?_⟩
  · rw [r2_stable hem hne2]
    simp [hne2]
  · rw [r2_stable hem hne2]
    exact partialTag_append_false hne2 hnp2

theorem acOf_stable {s t : Str} (h : reachAc s) : acOf (s ++ t) = acOf s := by
  obtain ⟨hem, hne2, hnp2⟩ := h
  unfold acOf
  rw [r2_stable hem hne2]
  exact parse_actions_tag_fst_stable hne2 hnp2

theorem r3_stable {s t : Str} (h : reachAc s) (hne3 : r3 s ≠ []) :
    r3 (s ++ t) = r3 s ++ t := by
  obtain ⟨hem, hne2, hnp2⟩ := h
  unfold r3
  rw [r2_stable hem hne2]
  exact parse_actions_tag_snd_stable hne2 hnp2 (by exact hne3)

theorem gatesPass_mono {s t : Str} (h : gatesPass s) : gatesPass (s ++ t) := by
  obtain ⟨hac, hne3, hnp3⟩ := h
  refine ⟨reachAc_mono hac, ?_, ?_⟩
  · rw [r3_stable hac hne3]
    simp [hne3]
  · rw [r3_stable hac hne3]
    exact partialTag_append_false hne3 hnp3

/-- Stepping the buffer from `P` to `P ++ c` turns the saved contextual
emojis for `P` into the saved contextual emojis for `P ++ c`. -/
theorem emFinal_step {P c : Str} :
    (if reachEm (P ++ c) ∧ emOf (P ++ c) ≠ [] then emOf (P ++ c) else emFinal P) =
      emFinal (P ++ c) := by
  simp only [emFinal]
  by_cases hr : reachEm (P ++ c)
  · rw [if_pos hr]
    by_cases he : emOf (P ++ c) = []
    · rw [if_neg (by simp [he]), he]
      by_cases hrP : reachEm P
      · rw [if_pos hrP]
        rw [emOf_stable hrP] at he
        exact he
      · rw [if_neg hrP]
    · rw [if_pos ⟨hr, he⟩]
  · rw [if_neg hr, if_neg (by simp [hr]),
      if_neg (fun hP => hr (reachEm_mono hP))]

/-- Stepping the buffer from `P` to `P ++ c` turns the saved action steps
for `P` into the saved action steps for `P ++ c`. -/
theorem acFinal_step {P c : Str} :
    (if reachAc (P ++ c) ∧ acOf (P ++ c) ≠ [] then acOf (P ++ c) else acFinal P) =
      acFinal (P ++ c) := by
  simp only [acFinal]
  by_cases hr : reachAc (P ++ c)
  · rw [if_pos hr]
    by_cases he : acOf (P ++ c) = []
    · rw [if_neg (by simp [he]), he]
      by_cases hrP : reachAc P
      · rw [if_pos hrP]
        rw [acOf_stable hrP] at he
        exact he
      · rw [if_neg hrP]
    · rw [if_pos ⟨hr, he⟩]
  · rw [if_neg hr, if_neg (by simp [hr]),
      if_neg (fun hP => hr (reachAc_mono hP))]

/-- Control-flow characterisation of one FASE-1 iteration below the header
cap: either the gates pass and the header resolves (emotion emitted,
remainder routed to `pending_buf`), or the iteration only grows the buffer
and refreshes the saved emoji/action values as far as the parse chain was
reached. -/
theorem headerStep_eq (person : Option String) (reqId : String)
    (st : DecState) (c : Str)
    (hfull : (st.prefixBuf ++ c).length < MAX_HEADER_BUFFER) :
    headerStep person reqId st c =
      if gatesPass (st.prefixBuf ++ c) then
        { st with
          prefixBuf := st.prefixBuf ++ c
          emojis := if emOf (st.prefixBuf ++ c) ≠ [] then emOf (st.prefixBuf ++ c)
                    else st.emojis
          actions := if acOf (st.prefixBuf ++ c) ≠ [] then acOf (st.prefixBuf ++ c)
                     else st.actions
          emotionSent := true
          emotionTag := tagOf (st.prefixBuf ++ c)
          msgs := st.msgs ++ [Msg.emotion reqId (tagOf (st.prefixBuf ++ c)) person]
          pendingBuf := st.pendingBuf ++ r3 (st.prefixBuf ++ c) }
      else
        { st with
          prefixBuf := st.prefixBuf ++ c
          emojis := if reachEm (st.prefixBuf ++ c) ∧ emOf (st.prefixBuf ++ c) ≠ []
                    then emOf (st.prefixBuf ++ c) else st.emojis
          actions := if reachAc (st.prefixBuf ++ c) ∧ acOf (st.prefixBuf ++ c) ≠ []
                     then acOf (st.prefixBuf ++ c) else st.actions } := by
  set buf := st.prefixBuf ++ c with hbuf
  have hf : (decide (MAX_HEADER_BUFFER ≤ buf.length)) = false := by
    simp [Nat.not_le.mpr hfull]
  simp only [headerStep, ← hbuf, hf, Bool.not_false, Bool.and_true]
  have q1 : (parse_emotion_tag buf).1 = tagOf buf := rfl
  have q2 : (parse_emotion_tag buf).2 = r1 buf := rfl
  have q3 : (parse_emojis_tag (r1 buf)).1 = emOf buf := rfl
  have q4 : (parse_emojis_tag (r1 buf)).2 = r2 buf := rfl
  have q5 : (parse_actions_tag (r2 buf)).1 = acOf buf := rfl
  have q6 : (parse_actions_tag (r2 buf)).2 = r3 buf := rfl
  rw [q1, q2, q3, q4, q5, q6]
  by_cases m0 : (']' : Char) ∈ buf
  · simp only [decide_eq_true m0, Bool.not_true, Bool.false_eq_true, if_false]
    by_cases e1 : r1 buf = []
    · have hnEm : ¬reachEm buf := fun h => h.2.1 e1
      have hnAc : ¬reachAc buf := fun h => hnEm h.1
      have hnG : ¬gatesPass buf := fun h => hnAc h.1
      by_cases hem : emOf buf = [] <;> by_cases hac : acOf buf = [] <;>
        simp [e1, hnEm, hnAc, hnG, hem, hac]
    · simp only [decide_eq_false e1, Bool.false_eq_true, if_false]
      by_cases p1 : partialTag (r1 buf) = true
      · have hnEm : ¬reachEm buf := fun h => by rw [h.2.2] at p1; exact Bool.false_ne_true p1
        have hnAc : ¬reachAc buf := fun h => hnEm h.1
        have hnG : ¬gatesPass buf := fun h => hnAc h.1
        by_cases hem : emOf buf = [] <;> by_cases hac : acOf buf = [] <;>
          simp [p1, hnEm, hnAc, hnG, hem, hac]
      · have hEm : reachEm buf := ⟨m0, e1, Bool.not_eq_true _ ▸ p1⟩
        simp only [Bool.not_eq_true] at p1
        simp only [p1, Bool.false_eq_true, if_false]
        by_cases e2 : r2 buf = []
        · have hnAc : ¬reachAc buf := fun h => h.2.1 e2
          have hnG : ¬gatesPass buf := fun h => hnAc h.1
          by_cases hem : emOf buf = [] <;> by_cases hac : acOf buf = [] <;>
            simp [e2, hEm, hnAc, hnG, hem, hac]
        · simp only [decide_eq_false e2, Bool.false_eq_true, if_false]
          by_cases p2 : partialTag (r2 buf) = true
          · have hnAc : ¬reachAc buf := fun h => by rw [h.2.2] at p2; exact Bool.false_ne_true p2
            have hnG : ¬gatesPass buf := fun h => hnAc h.1
            by_cases hem : emOf buf = [] <;> by_cases hac : acOf buf = [] <;>
              simp [p2, hEm, hnAc, hnG, hem, hac]
          · have hAc : reachAc buf := ⟨hEm, e2, Bool.not_eq_true _ ▸ p2⟩
            simp only [Bool.not_eq_true] at p2
            simp only [p2, Bool.false_eq_true, if_false]
            by_cases e3 : r3 buf = []
            · have hnG : ¬gatesPass buf := fun h => h.2.1 e3
              by_cases hem : emOf buf = [] <;> by_cases hac : acOf buf = [] <;>
                simp [e3, hEm, hAc, hnG, hem, hac]
            · simp only [decide_eq_false e3, Bool.false_eq_true, if_false]
              by_cases p3 : partialTag (r3 buf) = true
              · have hnG : ¬gatesPass buf := fun h => by rw [h.2.2] at p3; exact Bool.false_ne_true p3
                by_cases hem : emOf buf = [] <;> by_cases hac : acOf buf = [] <;>
                  simp [p3, hEm, hAc, hnG, hem, hac]
              · have hG : gatesPass buf := ⟨hAc, e3, Bool.not_eq_true _ ▸ p3⟩
                simp only [Bool.not_eq_true] at p3
                by_cases hem : emOf buf = [] <;> by_cases hac : acOf buf = [] <;>
                  simp [p3, hEm, hAc, hG, hem, hac]
  · have hnEm : ¬reachEm buf := fun h => m0 h.1
    have hnAc : ¬reachAc buf := fun h => hnEm h.1
    have hnG : ¬gatesPass buf := fun h => hnAc h.1
    by_cases hem : emOf buf = [] <;> by_cases hac : acOf buf = [] <;>
      simp [m0, hnEm, hnAc, hnG, hem, hac]

/-- FASE 3 never touches the resolved header values. -/
theorem streamStep_header_fields (reqId : String) (st : DecState) (c : Str) :
    (streamStep reqId st c).emotionSent = st.emotionSent ∧
    (streamStep reqId st c).emotionTag = st.emotionTag ∧
    (streamStep reqId st c).emojis = st.emojis ∧
    (streamStep reqId st c).actions = st.actions := by
  simp only [streamStep]
  repeat' split
  all_goals simp

/-- Once the header has resolved, the rest of the stream leaves the header
values unchanged. -/
theorem foldl_decodeStep_header_fields (person : Option String) (reqId : String) :
    ∀ (cs : List Str) (st : DecState), st.emotionSent = true →
    let st' := cs.foldl (decodeStep person reqId) st
    st'.emotionSent = true ∧ st'.emotionTag = st.emotionTag ∧
    st'.emojis = st.emojis ∧ st'.actions = st.actions := by
  intro cs
  induction cs with
  | nil => intro st hs; exact ⟨hs, rfl, rfl, rfl⟩
  | cons c cs ih =>
    intro st hs
    simp only [List.foldl_cons]
    by_cases hc : c = []
    · subst hc
      simpa [decodeStep] using ih st hs
    · have hstep : decodeStep person reqId st c = streamStep reqId st c := by
        simp [decodeStep, hc, hs]
      rw [hstep]
      obtain ⟨f1, f2, f3, f4⟩ := streamStep_header_fields reqId st c
      obtain ⟨g1, g2, g3, g4⟩ := ih (streamStep reqId st c) (by rw [f1, hs])
      exact ⟨g1, by rw [g2, f2], by rw [g3, f3], by rw [g4, f4]⟩

/-- Main loop invariant of FASE 1, for a stream whose whole text stays below
the header cap: after folding the chunks, either the header never resolved
and the state's buffer and saved values are those of the full text, or it
resolved and the emotion/emoji/action values are exactly the chain values of
the full text. -/
theorem foldl_decodeStep_char (person : Option String) (reqId : String) :
    ∀ (cs : List Str) (st : DecState) (P : Str),
      st.emotionSent = false → st.prefixBuf = P →
      st.emojis = emFinal P → st.actions = acFinal P → ¬gatesPass P →
      (P ++ cs.flatten).length < MAX_HEADER_BUFFER →
      (let st' := cs.foldl (decodeStep person reqId) st
       (st'.emotionSent = false ∧ st'.emotionTag = st.emotionTag ∧
        st'.prefixBuf = P ++ cs.flatten ∧
        st'.emojis = emFinal (P ++ cs.flatten) ∧
        st'.actions = acFinal (P ++ cs.flatten) ∧ ¬gatesPass (P ++ cs.flatten)) ∨
       (st'.emotionSent = true ∧ st'.emotionTag = tagOf (P ++ cs.flatten) ∧
        st'.emojis = emFinal (P ++ cs.flatten) ∧
        st'.actions = acFinal (P ++ cs.flatten))) := by
  intro cs
  induction cs with
  | nil =>
    intro st P hsent hpre hem hac hng hlen
    left
    simp only [List.foldl_nil, List.flatten_nil, List.append_nil]
    exact ⟨hsent, trivial, hpre, hem, hac, hng⟩
  | cons c cs ih =>
    intro st P hsent hpre hem hac hng hlen
    simp only [List.foldl_cons, List.flatten_cons, ← List.append_assoc]
    by_cases hc : c = []
    · subst hc
      have := ih st P hsent hpre hem hac hng (by simpa using hlen)
      simpa using this
    · have hstep : decodeStep person reqId st c = headerStep person reqId st c := by
        simp [decodeStep, hc, hsent]

      have hbuflen : (st.prefixBuf ++ c).length < MAX_HEADER_BUFFER := by
        rw [hpre]
        have hl := hlen
        simp only [List.flatten_cons, List.length_append] at hl
        simp only [List.length_append]
        omega
      rw [hstep, headerStep_eq person reqId st c hbuflen]
      by_cases hg : gatesPass (st.prefixBuf ++ c)
      · rw [if_pos hg]
        right
        rw [hpre] at hg
        -- the resolved state: fold the remaining chunks while emotionSent
        have hfold := foldl_decodeStep_header_fields person reqId cs
          { st with
            prefixBuf := st.prefixBuf ++ c
            emojis := if emOf (st.prefixBuf ++ c) ≠ [] then emOf (st.prefixBuf ++ c)
                      else st.emojis
            actions := if acOf (st.prefixBuf ++ c) ≠ [] then acOf (st.prefixBuf ++ c)
                       else st.actions
            emotionSent := true
            emotionTag := tagOf (st.prefixBuf ++ c)
            msgs := st.msgs ++ [Msg.emotion reqId (tagOf (st.prefixBuf ++ c)) person]
            pendingBuf := st.pendingBuf ++ r3 (st.prefixBuf ++ c) }
          rfl
        obtain ⟨g1, g2, g3, g4⟩ := hfold
        refine ⟨g1, ?_, ?_, ?_⟩
        · rw [g2]
          simp only [hpre]
          exact (tagOf_stable hg.1.1.1).symm
        · rw [g3]
          simp only [hpre]
          have h1 : (if emOf (P ++ c) ≠ [] then emOf (P ++ c) else st.emojis) =
              emFinal (P ++ c) := by
            rw [hem]
            have := emFinal_step (P := P) (c := c)
            rw [← this]
            have hrem : reachEm (P ++ c) := hg.1.1
            by_cases hne : emOf (P ++ c) = [] <;> simp [hne, hrem]
          rw [h1]
          unfold emFinal
          rw [if_pos hg.1.1, if_pos (reachEm_mono hg.1.1),
            emOf_stable hg.1.1]
        · rw [g4]
          simp only [hpre]
          have h1 : (if acOf (P ++ c) ≠ [] then acOf (P ++ c) else st.actions) =
              acFinal (P ++ c) := by
            rw [hac]
            have := acFinal_step (P := P) (c := c)
            rw [← this]
            have hrac : reachAc (P ++ c) := hg.1
            by_cases hne : acOf (P ++ c) = [] <;> simp [hne, hrac]
          rw [h1]
          unfold acFinal
          rw [if_pos hg.1, if_pos (reachAc_mono hg.1), acOf_stable hg.1]
      · rw [if_neg hg]
        rw [hpre] at hg
        have hlen' : (P ++ c ++ cs.flatten).length < MAX_HEADER_BUFFER := by
          simpa [List.append_assoc] using hlen
        have := ih
          { st with
            prefixBuf := st.prefixBuf ++ c
            emojis := if reachEm (st.prefixBuf ++ c) ∧ emOf (st.prefixBuf ++ c) ≠ []
                      then emOf (st.prefixBuf ++ c) else st.emojis
            actions := if reachAc (st.prefixBuf ++ c) ∧ acOf (st.prefixBuf ++ c) ≠ []
                       then acOf (st.prefixBuf ++ c) else st.actions }
          (P ++ c) hsent (by simp [hpre]) ?_ ?_ hg hlen'
        · exact this
        · simp only [hpre, hem]
          exact emFinal_step
        · simp only [hpre, hac]
          exact acFinal_step

theorem finishFlush_header_fields (reqId : String) (st : DecState) :
    (finishFlush reqId st).emotionSent = st.emotionSent ∧
    (finishFlush reqId st).emotionTag = st.emotionTag ∧
    (finishFlush reqId st).emojis = st.emojis ∧
    (finishFlush reqId st).actions = st.actions := by
  simp only [finishFlush]
  repeat' split
  all_goals simp

theorem finishEmotion_header_fields (person : Option String) (reqId : String)
    (st : DecState) :
    (finishEmotion person reqId st).emojis = st.emojis ∧
    (finishEmotion person reqId st).actions = st.actions ∧
    (st.emotionSent = true → (finishEmotion person reqId st).emotionTag = st.emotionTag) ∧
    (st.emotionSent = false → (finishEmotion person reqId st).emotionTag =
      (if st.prefixBuf ≠ [] then tagOf st.prefixBuf else st.emotionTag)) := by
  simp only [finishEmotion]
  by_cases hs : st.emotionSent
  · simp [hs]
  · simp only [hs, Bool.false_eq_true, if_false]
    by_cases hp : st.prefixBuf ≠ [] <;>
      simp only [hp, if_true, if_false, ite_true, ite_false, ite_not] <;>
      repeat' split <;>
      simp_all [tagOf]

theorem finishStream_header_fields (person : Option String) (reqId : String)
    (st : DecState) :
    (finishStream person reqId st).emojis = st.emojis ∧
    (finishStream person reqId st).actions = st.actions ∧
    (st.emotionSent = true → (finishStream person reqId st).emotionTag = st.emotionTag) ∧
    (st.emotionSent = false → (finishStream person reqId st).emotionTag =
      (if st.prefixBuf ≠ [] then tagOf st.prefixBuf else st.emotionTag)) := by
  obtain ⟨e1, e2, e3, e4⟩ := finishEmotion_header_fields person reqId st
  obtain ⟨f1, f2, f3, f4⟩ :=
    finishFlush_header_fields reqId (finishEmotion person reqId st)
  refine ⟨?_, ?_, ?_, ?_⟩
  · rw [finishStream, f3, e1]
  · rw [finishStream, f4, e2]
  · intro h
    rw [finishStream, f2, e3 h]
  · intro h
    rw [finishStream, f2, e4 h]

theorem finalize_header_fields (person : Option String) (reqId : String)
    (st : DecState) :
    (finalize person reqId st).emotionTag = st.emotionTag ∧
    (finalize person reqId st).emojis = st.emojis ∧
    (finalize person reqId st).actions = st.actions := by
  simp only [finalize]
  repeat' split
  all_goals simp

theorem emFinal_nil : emFinal [] = [] := by
  rw [emFinal, if_neg]
  intro h
  simpa using h.1

theorem acFinal_nil : acFinal [] = [] := by
  rw [acFinal, if_neg]
  intro h
  simpa using h.1.1

theorem gatesPass_nil : ¬gatesPass [] := by
  intro h
  simpa using h.1.1.1

theorem tagOf_nil : tagOf [] = "neutral" := rfl

/-- Characterisation of the header outputs of a full response cycle whose
stream text stays below the 500-character header cap: the decoded emotion
tag, contextual emoji list and action list are functions of the
concatenated stream text alone, independent of the chunking. -/
theorem processInteraction_header_char (person : Option String) (reqId : String)
    (chunks : List Str) (hlen : chunks.flatten.length < MAX_HEADER_BUFFER) :
    (processInteraction person reqId chunks).emotionTag = tagOf chunks.flatten ∧
    (processInteraction person reqId chunks).emojis = emFinal chunks.flatten ∧
    (processInteraction person reqId chunks).actions = acFinal chunks.flatten := by
  have hchar := foldl_decodeStep_char person reqId chunks {} [] rfl rfl
    (emFinal_nil.symm) (acFinal_nil.symm) gatesPass_nil (by simpa using hlen)
  set stF := chunks.foldl (decodeStep person reqId) {} with hstF
  obtain ⟨hfin1, hfin2, hfin3, hfin4⟩ :=
    finishStream_header_fields person reqId stF
  obtain ⟨hfz1, hfz2, hfz3⟩ :=
    finalize_header_fields person reqId (finishStream person reqId stF)
  have hPI : processInteraction person reqId chunks =
      finalize person reqId (finishStream person reqId stF) := rfl
  simp only [List.nil_append] at hchar
  rcases hchar with ⟨h1, h2, h3, h4, h5, h6⟩ | ⟨h1, h2, h3, h4⟩
  · -- the header never resolved: the end-of-stream fallback supplies the tag
    refine ⟨?_, ?_, ?_⟩
    · rw [hPI, hfz1, hfin4 h1, h3]
      by_cases hS : chunks.flatten = []
      · rw [if_neg (by simp [hS]), h2, hS, tagOf_nil]
      · rw [if_pos (by simpa using hS)]
    · rw [hPI, hfz2, hfin1, h4]
    · rw [hPI, hfz3, hfin2, h5]
  · refine ⟨?_, ?_, ?_⟩
    · rw [hPI, hfz1, hfin3 h1, h2]
    · rw [hPI, hfz2, hfin1, h3]
    · rw [hPI, hfz3, hfin2, h4]

set_option maxRecDepth 100000 in
/-- **C1, counterexample.**  The claim as stated is false: (i) the same
stream text split at a different boundary produces a different final
visible text (`"A B"` versus `"A  B"`: the end-of-stream flush rstrips the
text before the media-summary tag and re-joins with a single space, while
the FASE-3 path forwards it verbatim); and (ii) when the `[emojis:...]`
tag closes beyond the 500-character header cap, the decoded emoji list
itself depends on the chunking. -/
theorem c1_chunk_invariance_counterexample :
    (c1VisA.flatten = c1VisB.flatten ∧
     textChunksConcat (processInteraction none "r" c1VisA).msgs ≠
       textChunksConcat (processInteraction none "r" c1VisB).msgs) ∧
    (c1CapA.flatten = c1CapB.flatten ∧
     (processInteraction none "r" c1CapA).emojis ≠
       (processInteraction none "r" c1CapB).emojis) := by
  refine ⟨⟨by decide, by decide⟩, ⟨?_, by decide⟩⟩
  simp [c1CapA, c1CapB]

/-- **C1 (amended).**  Chunk-boundary invariance of the streaming decoder,
as far as the code provides it: for every model-output text shorter than
the 500-character header-buffer cap and every two ways of splitting it into
chunks, the response cycle decodes the same emotion tag, the same
contextual emoji list and the same action list.  (The final visible text,
and the emoji/action lists of streams whose header tags straddle the cap,
are not chunking-invariant — see the counterexample.) -/
theorem c1_header_outputs_chunk_invariant (cs1 cs2 : List Str)
    (hjoin : cs1.flatten = cs2.flatten)
    (hlen : cs1.flatten.length < MAX_HEADER_BUFFER)
    (person : Option String) (reqId : String) :
    (processInteraction person reqId cs1).emotionTag =
      (processInteraction person reqId cs2).emotionTag ∧
    (processInteraction person reqId cs1).emojis =
      (processInteraction person reqId cs2).emojis ∧
    (processInteraction person reqId cs1).actions =
      (processInteraction person reqId cs2).actions := by
  obtain ⟨a1, a2, a3⟩ := processInteraction_header_char person reqId cs1 hlen
  obtain ⟨b1, b2, b3⟩ := processInteraction_header_char person reqId cs2
    (hjoin ▸ hlen)
  refine ⟨?_, ?_, ?_⟩
  · rw [a1, b1, hjoin]
  · rw [a2, b2, hjoin]
  · rw [a3, b3, hjoin]

/-- **C1, witness.**  The amended invariance theorem applied to the spec's
own §8 scenario: `"[emot" ⧺ "ion:sad] Lo " ⧺ "siento."` decodes identically
to the unsplit text. -/
theorem c1_header_outputs_chunk_invariant_witness :
    ["[emot".toList, "ion:sad] Lo ".toList, "siento.".toList].flatten =
      ["[emotion:sad] Lo siento.".toList].flatten ∧
    ["[emot".toList, "ion:sad] Lo ".toList, "siento.".toList].flatten.length <
      MAX_HEADER_BUFFER ∧
    ((processInteraction (some "p") "r"
        ["[emot".toList, "ion:sad] Lo ".toList, "siento.".toList]).emotionTag =
      (processInteraction (some "p") "r"
        ["[emotion:sad] Lo siento.".toList]).emotionTag ∧
     (processInteraction (some "p") "r"
        ["[emot".toList, "ion:sad] Lo ".toList, "siento.".toList]).emojis =
      (processInteraction (some "p") "r"
        ["[emotion:sad] Lo siento.".toList]).emojis ∧
     (processInteraction (some "p") "r"
        ["[emot".toList, "ion:sad] Lo ".toList, "siento.".toList]).actions =
      (processInteraction (some "p") "r"
        ["[emotion:sad] Lo siento.".toList]).actions) :=
  ⟨by decide, by decide,
   c1_header_outputs_chunk_invariant _ _ (by decide) (by decide) (some "p") "r"⟩

theorem headerStep_msgs (person : Option String) (reqId : String)
    (st : DecState) (c : Str) :
    ((headerStep person reqId st c).emotionSent = st.emotionSent ∧
     (headerStep person reqId st c).msgs = st.msgs) ∨
    (∃ t, (headerStep person reqId st c).emotionSent = true ∧
      (headerStep person reqId st c).msgs =
        st.msgs ++ [Msg.emotion reqId t person]) := by
  suffices h : ∀ H : DecState, headerStep person reqId st c = H →
      ((H.emotionSent = st.emotionSent ∧ H.msgs = st.msgs) ∨
       (∃ t, H.emotionSent = true ∧
         H.msgs = st.msgs ++ [Msg.emotion reqId t person])) from h _ rfl
  intro H hH
  unfold headerStep at hH
  lift_lets at hH
  extract_lets buf full st0 er jr st1 ar st2 at hH
  repeat' split at hH
  all_goals subst hH
  all_goals first
    | (left; constructor <;> (try unfold_let st2 st1 st0) <;>
        (repeat' split) <;> rfl)
    | (right; refine ⟨er.1, ?_, ?_⟩ <;> (try unfold_let st2 st1 st0) <;>
        (repeat' split) <;> rfl)

theorem streamStep_msgs (reqId : String) (st : DecState) (c : Str) :
    (streamStep reqId st c).msgs =
      st.msgs ++ (streamStep reqId st c).msgs.drop st.msgs.length ∧
    ((streamStep reqId st c).msgs.drop st.msgs.length).all
      (fun m => !isEmotionMsg m) = true := by
  simp only [streamStep]
  repeat' split
  all_goals constructor
  all_goals simp [List.append_assoc, isEmotionMsg]

theorem decodeStep_traceInv (person : Option String) (reqId : String)
    (st : DecState) (c : Str) (h : traceInv person reqId st) :
    traceInv person reqId (decodeStep person reqId st c) := by
  obtain ⟨h0, h1⟩ := h
  unfold decodeStep
  by_cases hc : c = []
  · simpa [hc] using ⟨h0, h1⟩
  · rw [if_neg hc]
    by_cases hs : st.emotionSent
    · rw [if_pos hs]
      obtain ⟨t, rest, hmsgs, hall⟩ := h1 hs
      obtain ⟨f1, f2, f3, f4⟩ := streamStep_header_fields reqId st c
      obtain ⟨g1, g2⟩ := streamStep_msgs reqId st c
      constructor
      · intro hfalse
        rw [f1, hs] at hfalse
        exact absurd hfalse (by simp)
      · intro _
        refine ⟨t, rest ++ (streamStep reqId st c).msgs.drop st.msgs.length, ?_, ?_⟩
        · rw [g1, hmsgs]
          simp
        · simp only [List.all_append, Bool.and_eq_true]
          exact ⟨hall, g2⟩
    · rw [if_neg hs]
      have hs' : st.emotionSent = false := by simpa using hs
      have hempty := h0 hs'
      rcases headerStep_msgs person reqId st c with ⟨k1, k2⟩ | ⟨t, k1, k2⟩
      · constructor
        · intro _
          rw [k2, hempty]
        · intro htrue
          rw [k1, hs'] at htrue
          exact absurd htrue (by simp)
      · constructor
        · intro hfalse
          rw [k1] at hfalse
          exact absurd hfalse (by simp)
        · intro _
          exact ⟨t, [], by rw [k2, hempty]; rfl, by simp⟩

theorem foldl_decodeStep_traceInv (person : Option String) (reqId : String) :
    ∀ (cs : List Str) (st : DecState), traceInv person reqId st →
      traceInv person reqId (cs.foldl (decodeStep person reqId) st) := by
  intro cs
  induction cs with
  | nil => intro st h; exact h
  | cons c cs ih =>
    intro st h
    exact ih _ (decodeStep_traceInv person reqId st c h)

theorem finishEmotion_trace (person : Option String) (reqId : String)
    (st : DecState) (h : traceInv person reqId st) :
    (finishEmotion person reqId st).emotionSent = true ∧ ∃ t rest,
      (finishEmotion person reqId st).msgs =
        Msg.emotion reqId t person :: rest ∧
      rest.all (fun m => !isEmotionMsg m) = true := by
  obtain ⟨h0, h1⟩ := h
  unfold finishEmotion
  by_cases hs : st.emotionSent
  · rw [if_pos hs]
    exact ⟨hs, h1 hs⟩
  · have hs' : st.emotionSent = false := by simpa using hs
    have hempty := h0 hs'
    rw [if_neg hs]
    dsimp only
    split <;> split
    · exact ⟨rfl, (parse_emotion_tag st.prefixBuf).1,
        [Msg.textChunk reqId (st.visible ++ (parse_emotion_tag st.prefixBuf).2)],
        by simp [hempty], by simp [isEmotionMsg]⟩
    · exact ⟨rfl, (parse_emotion_tag st.prefixBuf).1, [], by simp [hempty], by simp⟩
    · exact ⟨rfl, st.emotionTag, [Msg.textChunk reqId (st.visible ++ ([] : Str))],
        by simp [hempty], by simp [isEmotionMsg]⟩
    · exact ⟨rfl, st.emotionTag, [], by simp [hempty], by simp⟩

theorem finishFlush_msgs (reqId : String) (st : DecState) :
    (finishFlush reqId st).msgs =
      st.msgs ++ (finishFlush reqId st).msgs.drop st.msgs.length ∧
    ((finishFlush reqId st).msgs.drop st.msgs.length).all
      (fun m => !isEmotionMsg m) = true := by
  simp only [finishFlush]
  repeat' split
  all_goals constructor
  all_goals simp [List.append_assoc, isEmotionMsg]

theorem finalize_msgs (person : Option String) (reqId : String) (st : DecState) :
    (finalize person reqId st).msgs =
      st.msgs ++ (finalize person reqId st).msgs.drop st.msgs.length ∧
    ((finalize person reqId st).msgs.drop st.msgs.length).all
      (fun m => !isEmotionMsg m) = true := by
  simp only [finalize]
  repeat' split
  all_goals constructor
  all_goals simp [List.append_assoc, isEmotionMsg]

theorem foldl_decodeStep_nil_chunks (person : Option String) (reqId : String) :
    ∀ (cs : List Str) (st : DecState), (∀ c ∈ cs, c = []) →
      cs.foldl (decodeStep person reqId) st = st := by
  intro cs
  induction cs with
  | nil => intro st _; rfl
  | cons c cs ih =>
    intro st h
    have hc : c = [] := h c (List.mem_cons_self c cs)
    have hrec := ih st (fun x hx => h x (List.mem_cons_of_mem c hx))
    rw [List.foldl_cons, hc]
    simpa [decodeStep] using hrec

set_option maxHeartbeats 2000000 in
/-- C3: in the trace of every normally completing response cycle the
`emotion` notification is the very first message, every later message is a
non-`emotion` message (so exactly one `emotion` is emitted, before the
first `text_chunk`), and when the backend stream is empty the emitted
emotion is the default `"neutral"`. -/
theorem c3_one_emotion_before_text (person : Option String) (reqId : String)
    (chunks : List Str) :
    (∃ t rest,
      (processInteraction person reqId chunks).msgs =
        Msg.emotion reqId t person :: rest ∧
      rest.all (fun m => !isEmotionMsg m) = true) ∧
    ((∀ c ∈ chunks, c = []) →
      (processInteraction person reqId chunks).msgs.head? =
        some (Msg.emotion reqId "neutral" person)) := by
  constructor
  · have hinv : traceInv person reqId (runDecode person reqId chunks) :=
      foldl_decodeStep_traceInv person reqId chunks {}
        ⟨fun _ => rfl, fun h => absurd h (by decide)⟩
    obtain ⟨hes, t, rest, hmsgs, hall⟩ :=
      finishEmotion_trace person reqId (runDecode person reqId chunks) hinv
    obtain ⟨f1, f2⟩ :=
      finishFlush_msgs reqId (finishEmotion person reqId (runDecode person reqId chunks))
    obtain ⟨g1, g2⟩ :=
      finalize_msgs person reqId
        (finishFlush reqId (finishEmotion person reqId (runDecode person reqId chunks)))
    have hPI : processInteraction person reqId chunks =
        finalize person reqId
          (finishFlush reqId (finishEmotion person reqId (runDecode person reqId chunks))) := by
      rw [processInteraction, finishStream]
    refine ⟨t, rest ++
      ((finishFlush reqId (finishEmotion person reqId (runDecode person reqId chunks))).msgs.drop
        (finishEmotion person reqId (runDecode person reqId chunks)).msgs.length) ++
      ((finalize person reqId
          (finishFlush reqId (finishEmotion person reqId (runDecode person reqId chunks)))).msgs.drop
        (finishFlush reqId (finishEmotion person reqId (runDecode person reqId chunks))).msgs.length),
      ?_, ?_⟩
    · rw [hPI, g1, f1, hmsgs]
      simp
    · simp only [List.all_append, Bool.and_eq_true]
      exact ⟨⟨hall, f2⟩, g2⟩
  · intro hc
    have hrun : runDecode person reqId chunks = {} := by
      rw [runDecode]
      exact foldl_decodeStep_nil_chunks person reqId chunks {} hc
    rw [processInteraction, finishStream, hrun]
    have hE : finishEmotion person reqId ({} : DecState) =
        { emotionSent := true, emotionTag := "neutral",
          msgs := [Msg.emotion reqId "neutral" person] } := rfl
    rw [hE]
    have hF : finishFlush reqId
        ({ emotionSent := true, emotionTag := "neutral",
           msgs := [Msg.emotion reqId "neutral" person] } : DecState) =
        { emotionSent := true, emotionTag := "neutral",
          msgs := [Msg.emotion reqId "neutral" person] } := rfl
    rw [hF]
    obtain ⟨g1, _⟩ := finalize_msgs person reqId
      { emotionSent := true, emotionTag := "neutral",
        msgs := [Msg.emotion reqId "neutral" person] }
    rw [g1]
    rfl

/-- Closed instance of `c3_one_emotion_before_text` at the empty stream:
the `emotion` defaults to `"neutral"` and heads the trace. -/
theorem c3_one_emotion_before_text_witness :
    (∀ c ∈ ([] : List Str), c = []) ∧
    (processInteraction none "r" []).msgs.head? =
      some (Msg.emotion "r" "neutral" none) :=
  ⟨fun c hc => absurd hc (List.not_mem_nil c),
   (c3_one_emotion_before_text none "r" []).2
     (fun c hc => absurd hc (List.not_mem_nil c))⟩

/-- A response cycle whose backend stream raises before the header resolves
emits no `emotion` notification at all, yet does send a message (the
`AGENT_ERROR`): the claim is false for such invocations of
`_process_interaction`. -/
theorem c3_raising_cycle_counterexample :
    (processInteractionRaising none "r" ["[emo".toList]).countP
      (fun m => isEmotionMsg m) = 0 ∧
    processInteractionRaising none "r" ["[emo".toList] ≠ [] := by decide

/-- C2: refuted (bug in the code). The FASE-3 streaming path forwards
`[memory:...]` directives verbatim inside `text_chunk` payloads — the
final extraction passes (`streaming.py` lines 707–751) strip them only
from `full_response`, which feeds `response_meta.response_text`, after
the chunks were already sent. On `c2Stream` a `text_chunk` payload
contains the `[memory:` control-tag substring even though the
`response_meta.response_text` of the same cycle is clean. -/
theorem c2_control_tag_leak :
    (processInteraction none "r" c2Stream).msgs.any (chunkLeaks memOpen) = true ∧
    (metaTexts (processInteraction none "r" c2Stream).msgs).all
      (fun t => !(decide (memOpen <:+: t))) = true := by decide

theorem mem_insertBy (le : MemoryRow → MemoryRow → Bool) (a x : MemoryRow) :
    ∀ l : List MemoryRow, (x ∈ insertBy le a l ↔ x = a ∨ x ∈ l) := by
  intro l
  induction l with
  | nil => simp [insertBy]
  | cons b l ih =>
    rw [insertBy]
    split
    · simp
    · simp only [List.mem_cons, ih]
      tauto

theorem mem_sortBy (le : MemoryRow → MemoryRow → Bool) (x : MemoryRow) :
    ∀ l : List MemoryRow, (x ∈ sortBy le l ↔ x ∈ l) := by
  intro l
  induction l with
  | nil => exact Iff.rfl
  | cons b l ih =>
    rw [sortBy, List.foldr_cons, mem_insertBy]
    rw [sortBy] at ih
    rw [ih]
    simp

/-- C4: the privacy gate of `MemoryRepository.save` — `None` is returned
exactly when the content contains a sensitive keyword case-insensitively;
a rejection leaves the table untouched, and an accepted save appends
exactly the one returned row, stored verbatim. -/
theorem c4_privacy_gate (db : List MemoryRow) (nextId now : Nat)
    (uid mtype : String) (content : Str) (imp : Int) (expiry : Option Nat) :
    ((MemoryRepository.save db nextId now uid mtype content imp expiry).1 = none ↔
      ∃ kw ∈ PRIVACY_KEYWORDS, kw <:+: pyLower content) ∧
    ((MemoryRepository.save db nextId now uid mtype content imp expiry).1 = none →
      (MemoryRepository.save db nextId now uid mtype content imp expiry).2 = db) ∧
    (∀ row,
      (MemoryRepository.save db nextId now uid mtype content imp expiry).1 = some row →
      (MemoryRepository.save db nextId now uid mtype content imp expiry).2 = db ++ [row] ∧
      row.user_id = uid ∧ row.memory_type = mtype ∧ row.content = content ∧
      row.importance = imp ∧ row.timestamp = now ∧ row.expires_at = expiry) := by
  by_cases hp : is_private content = true
  · have hsave : MemoryRepository.save db nextId now uid mtype content imp expiry =
        (none, db) := by
      rw [MemoryRepository.save, if_pos hp]
    rw [hsave]
    refine ⟨⟨fun _ => ?_, fun _ => rfl⟩, fun _ => rfl, fun row h => Option.noConfusion h⟩
    obtain ⟨kw, hkw, hdec⟩ := List.any_eq_true.mp hp
    exact ⟨kw, hkw, of_decide_eq_true hdec⟩
  · have hsave : MemoryRepository.save db nextId now uid mtype content imp expiry =
        (some { id := nextId, user_id := uid, memory_type := mtype,
                content := content, importance := imp, timestamp := now,
                expires_at := expiry },
         db ++ [{ id := nextId, user_id := uid, memory_type := mtype,
                  content := content, importance := imp, timestamp := now,
                  expires_at := expiry }]) := by
      rw [MemoryRepository.save, if_neg hp]
    rw [hsave]
    refine ⟨⟨fun h => Option.noConfusion h, fun hex => ?_⟩,
            fun h => Option.noConfusion h, fun row h => ?_⟩
    · obtain ⟨kw, hkw, hsub⟩ := hex
      exact absurd (List.any_eq_true.mpr ⟨kw, hkw, decide_eq_true hsub⟩) hp
    · obtain rfl : _ = row := Option.some.inj h
      exact ⟨rfl, rfl, rfl, rfl, rfl, rfl, rfl⟩

/-- Closed instance of `c4_privacy_gate`: a content mentioning `CONTRASEÑA`
is rejected (via the keyword `contraseña`), a harmless content is stored. -/
theorem c4_privacy_gate_witness :
    (MemoryRepository.save [] 1 0 "u" "fact"
        "Mi CONTRASEÑA es 1234".toList 5 none).1 = none ∧
    (MemoryRepository.save [] 1 0 "u" "fact"
        "Le gusta el café".toList 5 none).1 ≠ none :=
  ⟨(c4_privacy_gate [] 1 0 "u" "fact" "Mi CONTRASEÑA es 1234".toList 5 none).1.mpr
     ⟨"contraseña".toList, by decide, by decide⟩,
   by decide⟩

/-- C7 (amended): both retrieval operations return only rows of the user
that are unexpired (`expires_at` NULL or strictly later than now);
`get_for_user` includes every unexpired row of the user — in particular
every `expires_at = None` row; `get_recent_important` additionally keeps
only rows with `importance ≥ min_importance` and at most `limit` of them;
and no retrieval deletes anything — every stored row of the user, expired
or not, is still returned by `get_for_user` with `include_expired=True`. -/
theorem c7_expiry_filtering (db : List MemoryRow) (now : Nat) (uid : String)
    (minImp : Int) (lim : Nat) :
    (∀ r ∈ MemoryRepository.get_for_user db now uid false,
       r.user_id = uid ∧ notExpired now r.expires_at = true) ∧
    (∀ r ∈ db, r.user_id = uid → notExpired now r.expires_at = true →
       r ∈ MemoryRepository.get_for_user db now uid false) ∧
    (∀ r ∈ MemoryRepository.get_recent_important db now uid minImp lim,
       r.user_id = uid ∧ notExpired now r.expires_at = true ∧
       minImp ≤ r.importance) ∧
    (∀ r ∈ db, r.user_id = uid →
       r ∈ MemoryRepository.get_for_user db now uid true) := by
  refine ⟨?_, ?_, ?_, ?_⟩
  · intro r hr
    rw [MemoryRepository.get_for_user, mem_sortBy, List.mem_filter] at hr
    obtain ⟨-, hp⟩ := hr
    rw [Bool.and_eq_true, Bool.false_or] at hp
    exact ⟨of_decide_eq_true hp.1, hp.2⟩
  · intro r hr hu he
    rw [MemoryRepository.get_for_user, mem_sortBy, List.mem_filter]
    refine ⟨hr, ?_⟩
    rw [Bool.and_eq_true, Bool.false_or]
    exact ⟨decide_eq_true hu, he⟩
  · intro r hr
    rw [MemoryRepository.get_recent_important] at hr
    have hr2 := List.take_subset _ _ hr
    rw [mem_sortBy, List.mem_filter] at hr2
    obtain ⟨-, hp⟩ := hr2
    rw [Bool.and_eq_true, Bool.and_eq_true] at hp
    exact ⟨of_decide_eq_true hp.1.1, hp.2, of_decide_eq_true hp.1.2⟩
  · intro r hr hu
    rw [MemoryRepository.get_for_user, mem_sortBy, List.mem_filter]
    refine ⟨hr, ?_⟩
    rw [Bool.and_eq_true, Bool.true_or]
    exact ⟨decide_eq_true hu, rfl⟩

/-- Closed instance of `c7_expiry_filtering`: the never-expiring row is
returned by `get_for_user` with the default `include_expired=False`. -/
theorem c7_expiry_filtering_witness :
    c7Row ∈ ([c7Row] : List MemoryRow) ∧
    c7Row ∈ MemoryRepository.get_for_user [c7Row] 0 "u" false :=
  ⟨by decide,
   (c7_expiry_filtering [c7Row] 0 "u" 5 5).2.1 c7Row (by decide) rfl rfl⟩

/-- A stored never-expiring memory of importance 1 is *not* returned by
`get_recent_important` with its defaults (`min_importance=5`): rows with
`expires_at = None` are not always included in that retrieval. -/
theorem c7_always_included_counterexample :
    c7Row.expires_at = none ∧ c7Row ∈ ([c7Row] : List MemoryRow) ∧
    c7Row ∉ MemoryRepository.get_recent_important [c7Row] 0 "u" 5 5 := by decide

theorem find?_append_some {α : Type} (p : α → Bool) {l1 : List α} (l2 : List α)
    {a : α} (h : l1.find? p = some a) : (l1 ++ l2).find? p = some a := by
  induction l1 with
  | nil => exact absurd h (by simp)
  | cons b l ih =>
    rw [List.cons_append]
    by_cases hb : p b
    · rw [List.find?_cons_of_pos _ hb] at h
      rw [List.find?_cons_of_pos _ hb]
      exact h
    · rw [List.find?_cons_of_neg _ hb] at h
      rw [List.find?_cons_of_neg _ hb]
      exact ih h

theorem find?_map_eq {α : Type} (f : α → α) (p : α → Bool)
    (hf : ∀ x, p (f x) = p x) :
    ∀ l : List α, (l.map f).find? p = (l.find? p).map f := by
  intro l
  induction l with
  | nil => rfl
  | cons b l ih =>
    rw [List.map_cons]
    by_cases hb : p b
    · rw [List.find?_cons_of_pos _ (by rw [hf b]; exact hb),
          List.find?_cons_of_pos _ hb]
      rfl
    · rw [List.find?_cons_of_neg _ (by rw [hf b]; exact hb),
          List.find?_cons_of_neg _ hb]
      exact ih

theorem find?_filter_eq {α : Type} (q p : α → Bool)
    (hpq : ∀ x, p x = true → q x = true) :
    ∀ l : List α, (l.filter q).find? p = l.find? p := by
  intro l
  induction l with
  | nil => rfl
  | cons b l ih =>
    by_cases hqb : q b = true
    · rw [List.filter_cons_of_pos hqb]
      by_cases hpb : p b
      · rw [List.find?_cons_of_pos _ hpb, List.find?_cons_of_pos _ hpb]
      · rw [List.find?_cons_of_neg _ hpb, List.find?_cons_of_neg _ hpb]
        exact ih
    · have hpb : ¬ p b = true := fun h => hqb (hpq b h)
      rw [List.filter_cons_of_neg (by simpa using hqb),
          List.find?_cons_of_neg _ hpb]
      exact ih

theorem find?_filter_none {α : Type} (q p : α → Bool)
    (hpq : ∀ x, p x = true → q x = false) :
    ∀ l : List α, (l.filter q).find? p = none := by
  intro l
  induction l with
  | nil => rfl
  | cons b l ih =>
    by_cases hqb : q b = true
    · have hpb : ¬ p b = true := fun h => absurd hqb (by simp [hpq b h])
      rw [List.filter_cons_of_pos hqb, List.find?_cons_of_neg _ hpb]
      exact ih
    · rw [List.filter_cons_of_neg (by simpa using hqb)]
      exact ih

theorem find?_people_update (db : List PersonRow) (pd q : String)
    (row row2 : PersonRow)
    (hfr : db.find? (fun s => s.person_id == pd) = some row)
    (hpe : row2.person_id = row.person_id) :
    (db.map (fun s => if s.person_id == pd then row2 else s)).find?
        (fun s => s.person_id == q) =
      (db.find? (fun s => s.person_id == q)).map
        (fun s => if s.person_id == pd then row2 else s) := by
  apply find?_map_eq
  intro x
  by_cases hx : (x.person_id == pd) = true
  · have hb0 := List.find?_some hfr
    have hb : (row.person_id == pd) = true := hb0
    rw [if_pos hx, hpe, eq_of_beq hb, eq_of_beq hx]
  · rw [if_neg hx]

theorem count_le_update (pd q : String) (db : List PersonRow)
    (row row2 r r2 : PersonRow)
    (hfr : db.find? (fun s => s.person_id == pd) = some row)
    (hpe : row2.person_id = row.person_id)
    (hcount : row.interaction_count ≤ row2.interaction_count)
    (h1 : db.find? (fun s => s.person_id == q) = some r)
    (h2 : (db.map (fun s => if s.person_id == pd then row2 else s)).find?
        (fun s => s.person_id == q) = some r2) :
    r.interaction_count ≤ r2.interaction_count := by
  rw [find?_people_update db pd q row row2 hfr hpe, h1] at h2
  simp only [Option.map] at h2
  cases Option.some.inj h2
  by_cases hx : (r.person_id == pd) = true
  · rw [if_pos hx]
    have hb0 := List.find?_some h1
    have hb : (r.person_id == q) = true := hb0
    have hq : q = pd := by
      rw [← eq_of_beq hb]
      exact eq_of_beq hx
    rw [hq] at h1
    rw [h1] at hfr
    cases Option.some.inj hfr
    exact hcount
  · rw [if_neg hx]

theorem find?_append_eq_of_some (q : String) (db : List PersonRow)
    (newRow r r2 : PersonRow)
    (h1 : db.find? (fun s => s.person_id == q) = some r)
    (h2 : (db ++ [newRow]).find? (fun s => s.person_id == q) = some r2) :
    r = r2 := by
  rw [find?_append_some _ _ h1] at h2
  exact Option.some.inj h2

/-- C8: under every repository operation an existing person's
`interaction_count` never decreases; `get_or_create` on an existing slug
returns the person with the counter incremented by exactly one and
`last_seen` touched, with `created = False`; on an unknown slug it creates
the person (counter 0) and returns `created = True`. -/
theorem c8_interaction_counter (db : PeopleDB) (op : PeopleOp)
    (nextId now : Nat) (pid name : String) :
    (∀ q r r2, PeopleRepository.get_by_person_id db q = some r →
       PeopleRepository.get_by_person_id (applyPeople db op) q = some r2 →
       r.interaction_count ≤ r2.interaction_count) ∧
    (∀ r, PeopleRepository.get_by_person_id db pid = some r →
       (PeopleRepository.get_or_create db nextId now pid name).1 =
         ({ r with last_seen := now,
                   interaction_count := r.interaction_count + 1 }, false)) ∧
    (PeopleRepository.get_by_person_id db pid = none →
       (PeopleRepository.get_or_create db nextId now pid name).1.2 = true ∧
       (PeopleRepository.get_or_create db nextId now pid name).1.1.interaction_count = 0 ∧
       (PeopleRepository.get_or_create db nextId now pid name).1.1.person_id = pid) := by
  refine ⟨?_, ?_, ?_⟩
  · intro q r r2 h1 h2
    cases op with
    | createOp nid nw pd nm nt =>
      simp only [applyPeople, PeopleRepository.create] at h2
      simp only [PeopleRepository.get_by_person_id] at h1 h2
      cases find?_append_eq_of_some q db.people _ r r2 h1 h2
      exact Nat.le_refl _
    | getOrCreateOp nid nw pd nm =>
      cases hfind : PeopleRepository.get_by_person_id db pd with
      | none =>
        simp only [applyPeople, PeopleRepository.get_or_create, hfind,
          PeopleRepository.create] at h2
        simp only [PeopleRepository.get_by_person_id] at h1 h2
        cases find?_append_eq_of_some q db.people _ r r2 h1 h2
        exact Nat.le_refl _
      | some row =>
        simp only [applyPeople, PeopleRepository.get_or_create, hfind] at h2
        have hfr : db.people.find? (fun s => s.person_id == pd) = some row := by
          simpa [PeopleRepository.get_by_person_id] using hfind
        simp only [PeopleRepository.get_by_person_id] at h1 h2
        exact count_le_update pd q db.people row
          { row with last_seen := nw,
                     interaction_count := row.interaction_count + 1 }
          r r2 hfr rfl (Nat.le_succ _) h1 h2
    | updateNameOp pd nm =>
      cases hfind : PeopleRepository.get_by_person_id db pd with
      | none =>
        simp only [applyPeople, PeopleRepository.update_name, hfind] at h2
        rw [h1] at h2
        cases Option.some.inj h2
        exact Nat.le_refl _
      | some row =>
        simp only [applyPeople, PeopleRepository.update_name, hfind] at h2
        have hfr : db.people.find? (fun s => s.person_id == pd) = some row := by
          simpa [PeopleRepository.get_by_person_id] using hfind
        simp only [PeopleRepository.get_by_person_id] at h1 h2
        exact count_le_update pd q db.people row { row with name := nm }
          r r2 hfr rfl (Nat.le_refl _) h1 h2
    | updateNotesOp pd nt =>
      cases hfind : PeopleRepository.get_by_person_id db pd with
      | none =>
        simp only [applyPeople, PeopleRepository.update_notes, hfind] at h2
        rw [h1] at h2
        cases Option.some.inj h2
        exact Nat.le_refl _
      | some row =>
        simp only [applyPeople, PeopleRepository.update_notes, hfind] at h2
        have hfr : db.people.find? (fun s => s.person_id == pd) = some row := by
          simpa [PeopleRepository.get_by_person_id] using hfind
        simp only [PeopleRepository.get_by_person_id] at h1 h2
        exact count_le_update pd q db.people row { row with notes := nt }
          r r2 hfr rfl (Nat.le_refl _) h1 h2
    | deleteOp pd =>
      cases hfind : PeopleRepository.get_by_person_id db pd with
      | none =>
        simp only [applyPeople, PeopleRepository.delete, hfind] at h2
        rw [h1] at h2
        cases Option.some.inj h2
        exact Nat.le_refl _
      | some row =>
        simp only [applyPeople, PeopleRepository.delete, hfind] at h2
        simp only [PeopleRepository.get_by_person_id] at h1 h2
        by_cases hq : q = pd
        · subst hq
          rw [find?_filter_none (fun s : PersonRow => !(s.person_id == q))
            (fun s : PersonRow => s.person_id == q)
            (fun x h => by
              have hb : (x.person_id == q) = true := h
              show (!(x.person_id == q)) = false
              rw [hb]
              rfl)] at h2
          exact absurd h2 (by simp)
        · rw [find?_filter_eq (fun s : PersonRow => !(s.person_id == pd))
            (fun s : PersonRow => s.person_id == q)
            (fun x h => by
              have hb : (x.person_id == q) = true := h
              have hxq : x.person_id = q := eq_of_beq hb
              show (!(x.person_id == pd)) = true
              rw [hxq, beq_eq_false_iff_ne.mpr hq]
              rfl)] at h2
          rw [h1] at h2
          cases Option.some.inj h2
          exact Nat.le_refl _
    | addEmbeddingOp nid nw pd emb lig =>
      cases hfind : PeopleRepository.get_by_person_id db pd with
      | none =>
        simp only [applyPeople, PeopleRepository.add_embedding, hfind] at h2
        rw [h1] at h2
        cases Option.some.inj h2
        exact Nat.le_refl _
      | some row =>
        simp only [applyPeople, PeopleRepository.add_embedding, hfind] at h2
        simp only [PeopleRepository.get_by_person_id] at h1 h2
        rw [h1] at h2
        cases Option.some.inj h2
        exact Nat.le_refl _
  · intro r hr
    rw [PeopleRepository.get_or_create, hr]
  · intro hnone
    rw [PeopleRepository.get_or_create, hnone]
    exact ⟨rfl, rfl, rfl⟩

/-- Closed instance of `c8_interaction_counter`: `get_or_create` on the
existing slug bumps the counter from 3 to 4, touches `last_seen` and
reports `created = False`. -/
theorem c8_interaction_counter_witness :
    PeopleRepository.get_by_person_id c8Db "persona_juan_01" = some c8Person ∧
    (PeopleRepository.get_or_create c8Db 2 7 "persona_juan_01" "Juan").1 =
      ({ c8Person with last_seen := 7, interaction_count := 4 }, false) :=
  ⟨by decide,
   (c8_interaction_counter c8Db
       (PeopleOp.getOrCreateOp 2 7 "persona_juan_01" "Juan")
       2 7 "persona_juan_01" "Juan").2.1 c8Person (by decide)⟩

/-- C9: `add_embedding` raises `ValueError` exactly when no person carries
the slug, leaving both tables untouched; when the person exists it appends
exactly one embedding row, owned by that slug and returned verbatim — so a
successful insert presupposes the owning person. -/
theorem c9_add_embedding (db : PeopleDB) (nextId now : Nat) (pid : String)
    (emb : List Nat) (lighting : Option String) :
    (PeopleRepository.get_by_person_id db pid = none →
       PeopleRepository.add_embedding db nextId now pid emb lighting =
         (.error ("Persona \x27" ++ pid ++ "\x27 no encontrada"), db)) ∧
    (∀ row, PeopleRepository.get_by_person_id db pid = some row →
       PeopleRepository.add_embedding db nextId now pid emb lighting =
         (.ok { id := nextId, person_id := pid, embedding := emb,
                captured_at := now, source_lighting := lighting },
          { db with embeddings := db.embeddings ++
             [{ id := nextId, person_id := pid, embedding := emb,
                captured_at := now, source_lighting := lighting }] })) ∧
    (∀ e res, PeopleRepository.add_embedding db nextId now pid emb lighting =
        (Except.ok e, res) →
       e.person_id = pid ∧ PeopleRepository.get_by_person_id db pid ≠ none) := by
  refine ⟨?_, ?_, ?_⟩
  · intro h
    rw [PeopleRepository.add_embedding, h]
  · intro row h
    rw [PeopleRepository.add_embedding, h]
  · intro e res h
    cases hfind : PeopleRepository.get_by_person_id db pid with
    | none =>
      rw [PeopleRepository.add_embedding, hfind] at h
      have h1 := congrArg Prod.fst h
      simp only [] at h1
      exact Except.noConfusion h1
    | some row =>
      rw [PeopleRepository.add_embedding, hfind] at h
      have h1 := congrArg Prod.fst h
      simp only [] at h1
      injection h1 with h2
      cases h2
      exact ⟨rfl, fun hc => Option.noConfusion hc⟩

/-- Closed instance of `c9_add_embedding`: inserting an embedding for an
unknown slug fails with the `ValueError` message and changes nothing. -/
theorem c9_add_embedding_witness :
    PeopleRepository.get_by_person_id
      ({ people := [], embeddings := [] } : PeopleDB) "p" = none ∧
    PeopleRepository.add_embedding
        ({ people := [], embeddings := [] } : PeopleDB) 1 0 "p" [1, 2] none =
      (.error "Persona \x27p\x27 no encontrada",
       ({ people := [], embeddings := [] } : PeopleDB)) :=
  ⟨rfl,
   (c9_add_embedding { people := [], embeddings := [] } 1 0 "p" [1, 2] none).1 rfl⟩

theorem streamStep_textChunks (reqId : String) (st : DecState) (c : Str) :
    (streamStep reqId st c).msgs =
      st.msgs ++ (streamStep reqId st c).msgs.drop st.msgs.length ∧
    ((streamStep reqId st c).msgs.drop st.msgs.length).all
      isTextChunkMsg = true := by
  simp only [streamStep]
  repeat' split
  all_goals constructor
  all_goals simp [List.append_assoc, isTextChunkMsg]

theorem decodeStep_decodeOnly (person : Option String) (reqId : String)
    (st : DecState) (c : Str) (h : st.msgs.all isDecodeMsg = true) :
    (decodeStep person reqId st c).msgs.all isDecodeMsg = true := by
  rw [decodeStep]
  by_cases hc : c = []
  · rw [if_pos hc]
    exact h
  · rw [if_neg hc]
    by_cases hs : st.emotionSent
    · rw [if_pos hs]
      obtain ⟨g1, g2⟩ := streamStep_textChunks reqId st c
      rw [g1]
      simp only [List.all_append, Bool.and_eq_true]
      refine ⟨h, ?_⟩
      rw [List.all_eq_true]
      intro x hx
      have h2 := List.all_eq_true.mp g2 x hx
      cases x
      all_goals first
        | rfl
        | exact Bool.noConfusion h2
    · rw [if_neg hs]
      rcases headerStep_msgs person reqId st c with ⟨-, k2⟩ | ⟨t, -, k2⟩
      · rw [k2]
        exact h
      · rw [k2]
        simp only [List.all_append, Bool.and_eq_true]
        exact ⟨h, by simp [isDecodeMsg]⟩

theorem runDecode_decodeOnly (person : Option String) (reqId : String)
    (chunks : List Str) :
    (runDecode person reqId chunks).msgs.all isDecodeMsg = true := by
  rw [runDecode]
  suffices h : ∀ (cs : List Str) (st : DecState),
      st.msgs.all isDecodeMsg = true →
      ((cs.foldl (decodeStep person reqId) st).msgs).all isDecodeMsg = true from
    h chunks {} rfl
  intro cs
  induction cs with
  | nil => intro st h; exact h
  | cons c cs ih =>
    intro st h
    exact ih _ (decodeStep_decodeOnly person reqId st c h)

/-- C5: a model stream that raises mid-cycle is contained in its turn —
the dispatch loop stays open, the turn's transcript ends with exactly one
error, which is the recoverable `AGENT_ERROR` tagged with the turn's
request id, and no `stream_end` is emitted; an exception reaching the
dispatch loop itself instead appends one non-recoverable `INTERNAL_ERROR`
and ends the loop, after which every further event is ignored. -/
theorem c5_turn_failure_containment (fresh : String) (st : SessState)
    (reqId : Option String) (content : String) (chunks : List Str)
    (hopen : st.closed = false) (hcontent : content ≠ "") :
    ((dispatchStep fresh st (.textMsg reqId content (.raises chunks))).closed
        = false ∧
     (dispatchStep fresh st (.textMsg reqId content (.raises chunks))).msgs =
       st.msgs ++ processInteractionRaising st.person
         (updReq st.requestId reqId fresh) chunks ∧
     (processInteractionRaising st.person (updReq st.requestId reqId fresh)
         chunks).filter isErrorMsg =
       [Msg.error "AGENT_ERROR" "Error procesando la solicitud" true
         (some (updReq st.requestId reqId fresh))] ∧
     (processInteractionRaising st.person (updReq st.requestId reqId fresh)
         chunks).all (fun m => !(isStreamEnd m)) = true) ∧
    ((dispatchStep fresh st .raiseOuter).closed = true ∧
     (dispatchStep fresh st .raiseOuter).msgs =
       st.msgs ++ [Msg.error "INTERNAL_ERROR" "Error interno del servidor"
         false none] ∧
     ∀ ev, dispatchStep fresh (dispatchStep fresh st .raiseOuter) ev =
       dispatchStep fresh st .raiseOuter) := by
  have hall := runDecode_decodeOnly st.person
    (updReq st.requestId reqId fresh) chunks
  have hstep : dispatchStep fresh st (.textMsg reqId content (.raises chunks)) =
      { st with requestId := updReq st.requestId reqId fresh,
                msgs := st.msgs ++ interactionMsgs st.person
                  (updReq st.requestId reqId fresh) (.raises chunks) } := by
    rw [dispatchStep, if_neg (by simp [hopen])]
    dsimp only
    rw [if_neg hcontent]
  have houter : dispatchStep fresh st .raiseOuter =
      { st with closed := true,
                msgs := st.msgs ++
                  [Msg.error "INTERNAL_ERROR" "Error interno del servidor"
                    false none] } := by
    rw [dispatchStep, if_neg (by simp [hopen])]
  refine ⟨⟨?_, ?_, ?_, ?_⟩, ?_, ?_, ?_⟩
  · rw [hstep]
    exact hopen
  · rw [hstep]
    rfl
  · rw [processInteractionRaising, List.filter_append]
    have hnil : (runDecode st.person (updReq st.requestId reqId fresh)
        chunks).msgs.filter isErrorMsg = [] := by
      rw [List.filter_eq_nil_iff]
      intro a ha
      have h2 := List.all_eq_true.mp hall a ha
      cases a
      all_goals first
        | exact fun hf => Bool.noConfusion hf
        | exact fun hf => Bool.noConfusion h2
    rw [hnil]
    rfl
  · rw [processInteractionRaising]
    simp only [List.all_append, Bool.and_eq_true]
    refine ⟨?_, by simp [isStreamEnd]⟩
    rw [List.all_eq_true]
    intro x hx
    have h2 := List.all_eq_true.mp hall x hx
    cases x
    all_goals first
      | rfl
      | exact Bool.noConfusion h2
  · rw [houter]
  · rw [houter]
  · intro ev
    have h2 : (dispatchStep fresh st .raiseOuter).closed = true := by
      rw [houter]
    revert h2
    generalize dispatchStep fresh st ClientEvent.raiseOuter = st2
    intro h2
    rw [dispatchStep.eq_def, if_pos h2]

/-- Closed instance of `c5_turn_failure_containment`: a turn whose stream
raises immediately leaves the loop open and sends exactly the recoverable
`AGENT_ERROR` tagged `"r"`. -/
theorem c5_turn_failure_containment_witness :
    (dispatchStep "f" ⟨none, "", [], [], false⟩
        (.textMsg (some "r") "hola" (.raises []))).closed = false ∧
    (processInteractionRaising none "r" []).filter isErrorMsg =
      [Msg.error "AGENT_ERROR" "Error procesando la solicitud" true
        (some "r")] :=
  ⟨(c5_turn_failure_containment "f" ⟨none, "", [], [], false⟩ (some "r")
      "hola" [] rfl (by decide)).1.1,
   (c5_turn_failure_containment "f" ⟨none, "", [], [], false⟩ (some "r")
      "hola" [] rfl (by decide)).1.2.2.1⟩

/-- C6: `audio_end` with an empty accumulated audio buffer sends exactly
one recoverable `EMPTY_AUDIO` error tagged with the turn's request id —
no response cycle runs (so in particular no `stream_end`) and the session
stays open. -/
theorem c6_empty_audio (fresh : String) (st : SessState)
    (reqId : Option String) (result : AgentResult)
    (hopen : st.closed = false) (hbuf : st.audioBuffer = []) :
    (dispatchStep fresh st (.audioEnd reqId result)).msgs =
      st.msgs ++ [Msg.error "EMPTY_AUDIO" "No se recibieron datos de audio"
        true (some (updReq st.requestId reqId fresh))] ∧
    (dispatchStep fresh st (.audioEnd reqId result)).closed = false := by
  have hstep : dispatchStep fresh st (.audioEnd reqId result) =
      { st with requestId := updReq st.requestId reqId fresh,
                msgs := st.msgs ++ [Msg.error "EMPTY_AUDIO"
                  "No se recibieron datos de audio" true
                  (some (updReq st.requestId reqId fresh))] } := by
    rw [dispatchStep, if_neg (by simp [hopen])]
    dsimp only
    rw [if_pos hbuf]
  rw [hstep]
  exact ⟨rfl, hopen⟩

/-- Closed instance of `c6_empty_audio` on a fresh session. -/
theorem c6_empty_audio_witness :
    (dispatchStep "f" ⟨none, "q", [], [], false⟩
        (.audioEnd none (.completes []))).msgs =
      [Msg.error "EMPTY_AUDIO" "No se recibieron datos de audio" true
        (some "q")] :=
  (c6_empty_audio "f" ⟨none, "q", [], [], false⟩ none (.completes [])
    rfl rfl).1

/-- C10: `_send_safe` is total — a failing `send_text` is swallowed (the
result is simply no delivered message), a successful attempt delivers
exactly its message, the overall behaviour is a pure function of the
connection state, and when the client is not CONNECTED the send is never
even attempted. -/
theorem c10_send_safe_total (cs : WsState) (fails : Bool) (text : String) :
    (∀ e, sendAttempt cs fails text = .error e → sendSafe cs fails text = none) ∧
    (∀ r, sendAttempt cs fails text = .ok r → sendSafe cs fails text = r) ∧
    (sendSafe cs fails text =
      if cs = WsState.connected ∧ fails = false then some text else none) ∧
    (cs ≠ WsState.connected → sendAttempt cs fails text = .ok none) := by
  refine ⟨?_, ?_, ?_, ?_⟩
  · intro e h
    rw [sendSafe, h]
  · intro r h
    rw [sendSafe, h]
  · cases cs with
    | connected => cases fails <;> rfl
    | disconnected => cases fails <;> rfl
  · intro h
    cases cs with
    | connected => exact absurd rfl h
    | disconnected => rfl

/-- Closed instance of `c10_send_safe_total`: a connected socket whose
`send_text` raises still yields a normal return (nothing delivered). -/
theorem c10_send_safe_total_witness :
    sendAttempt WsState.connected true "m" = Except.error "send failed" ∧
    sendSafe WsState.connected true "m" = none :=
  ⟨rfl, (c10_send_safe_total WsState.connected true "m").1 "send failed" rfl⟩

end Robi
